import Mathlib

/-!
Verification development for the cifra repository (classical-cipher
cryptanalysis tool).  Python sources are shallowly embedded: strings become
`List Char`, Python `int` becomes `ℤ` (or `ℕ` where the source value is a
non-negative index), Python `float` scores become `ℚ`, Python sets of
letters become `Finset Char`, and code that can raise an exception returns
`Option`/`Except` (`none`/`.error` marks the raising path).  Definitions
keep the source names where Lean allows it.
-/

set_option linter.unusedVariables false

/-- The 95 printable ASCII characters (code points 32-126); used to state
"ASCII printable text" hypotheses. -/
def printableAscii : List Char := (List.range 95).map (fun n => Char.ofNat (32 + n))

namespace Caesar

/-- `DEFAULT_CHARSET` of `cifra/cipher/caesar.py`. -/
def DEFAULT_CHARSET : List Char := "abcdefghijklmnopqrstuvwxyz".toList

/-- Body of the per-character step of `_offset_text` in `cifra/cipher/caesar.py`.
Python raises `IndexError` on an out-of-range charset index (possible for
keys outside `[0, len(charset))`); the model returns the defaulted
`List.getD` value there, and every theorem below stays inside the in-range
key space. -/
def offsetChar (key : ℤ) (advance : Bool) (charset : List Char) (char : Char) : Char :=
  let normalized_char := char.toLower
  if normalized_char ∈ charset then
    let charset_length : ℤ := charset.length
    let char_position : ℤ := charset.indexOf normalized_char
    let new_char_position : ℤ :=
      if advance then (char_position + key) % charset_length
      else
        let offset_position := char_position - key
        if 0 ≤ offset_position then offset_position
        else charset_length - (|offset_position| % charset_length)
    let new_char := charset.getD new_char_position.toNat 'a'
    if char.isLower then new_char else new_char.toUpper
  else char

/-- `_offset_text` of `cifra/cipher/caesar.py`: character-wise offset of the
whole text (the Python loop concatenates one output char per input char). -/
def _offset_text (text : List Char) (key : ℤ) (advance : Bool) (charset : List Char) :
    List Char :=
  text.map (offsetChar key advance charset)

/-- `cipher` of `cifra/cipher/caesar.py`.  The source calls
`_offset_text(text, key, True)` without forwarding `charset`, so the
default charset is always the one used. -/
def cipher (text : List Char) (key : ℤ) (charset : List Char) : List Char :=
  _offset_text text key true DEFAULT_CHARSET

/-- `decipher` of `cifra/cipher/caesar.py`.  As with `cipher`, the source
calls `_offset_text(ciphered_text, key, False)` without forwarding
`charset`. -/
def decipher (ciphered_text : List Char) (key : ℤ) (charset : List Char) : List Char :=
  _offset_text ciphered_text key false DEFAULT_CHARSET

end Caesar

namespace Substitution

/-- `DEFAULT_CHARSET` of `cifra/cipher/substitution.py`. -/
def DEFAULT_CHARSET : List Char := "abcdefghijklmnopqrstuvwxyz".toList

/-- `WrongSubstitutionKeyCauses` of `cifra/cipher/substitution.py`. -/
inductive WrongSubstitutionKeyCauses where
  | wrong_key_length
  | repeated_characters
deriving DecidableEq, Repr

/-- Per-character body of `cipher` in `cifra/cipher/substitution.py`.
Python indexes `key[charset.index(...)]`; the `check_substitution_key`
decorator guarantees `len(key) == len(charset)` so the index is in range
whenever the wrapper below reaches this code; `List.getD` models that
indexing. -/
def cipherChar (key charset : List Char) (char : Char) : Char :=
  if char.toLower ∈ charset then
    if char.isLower then key.getD (charset.indexOf char.toLower) char
    else (key.getD (charset.indexOf char.toLower) char).toUpper
  else char

/-- Per-character body of `decipher` in `cifra/cipher/substitution.py`. -/
def decipherChar (key charset : List Char) (ciphered_char : Char) : Char :=
  if ciphered_char.toLower ∈ key then
    if ciphered_char.isLower then charset.getD (key.indexOf ciphered_char.toLower) ciphered_char
    else (charset.getD (key.indexOf ciphered_char.toLower) ciphered_char).toUpper
  else ciphered_char

/-- The `check_substitution_key` decorator of `cifra/cipher/substitution.py`:
`len(key) != len(set(key))` is key duplication, i.e. `¬ key.Nodup`. -/
def check_substitution_key (key charset : List Char) : Option WrongSubstitutionKeyCauses :=
  if key.length ≠ charset.length then some .wrong_key_length
  else if ¬ key.Nodup then some .repeated_characters
  else none

/-- `cipher` of `cifra/cipher/substitution.py` (decorator included);
`.error` is the raised `WrongSubstitutionKey`. -/
def cipher (text key charset : List Char) :
    Except WrongSubstitutionKeyCauses (List Char) :=
  match check_substitution_key key charset with
  | some cause => .error cause
  | none => .ok (text.map (cipherChar key charset))

/-- `decipher` of `cifra/cipher/substitution.py` (decorator included). -/
def decipher (ciphered_text key charset : List Char) :
    Except WrongSubstitutionKeyCauses (List Char) :=
  match check_substitution_key key charset with
  | some cause => .error cause
  | none => .ok (ciphered_text.map (decipherChar key charset))

end Substitution

namespace Cryptomath

/-- `gcd` of `cifra/cipher/cryptomath.py` (Euclid's loop, `a, b = b % a, a`);
Python `%` on ints is floored modulo, i.e. `Int.fmod`.  The loop is modelled
with enough fuel to always reach the source's fixed point for the arguments
the callers pass. -/
def gcdAux : ℕ → ℤ → ℤ → ℤ
  | 0, _, b => b
  | fuel + 1, a, b => if a = 0 then b else gcdAux fuel (b.fmod a) a

/-- `gcd` of `cifra/cipher/cryptomath.py`. -/
def gcd (a b : ℤ) : ℤ := gcdAux (a.natAbs + b.natAbs + 1) a b

/-- `find_mod_inverse` of `cifra/cipher/cryptomath.py`: extended Euclid,
returning `None` when `gcd(a, m) != 1`. -/
def findModInverseAux : ℕ → ℤ × ℤ × ℤ → ℤ × ℤ × ℤ → ℤ × ℤ × ℤ
  | 0, u, _ => u
  | fuel + 1, (u1, u2, u3), (v1, v2, v3) =>
    if v3 = 0 then (u1, u2, u3)
    else
      let q := u3.fdiv v3
      findModInverseAux fuel (v1, v2, v3) (u1 - q * v1, u2 - q * v2, u3 - q * v3)

/-- `find_mod_inverse` of `cifra/cipher/cryptomath.py`. -/
def find_mod_inverse (a m : ℤ) : Option ℤ :=
  if gcd a m ≠ 1 then none
  else
    let u := findModInverseAux (a.natAbs + m.natAbs + 1) (1, 0, a) (0, 1, m)
    some (u.1.fmod m)

end Cryptomath

namespace Common

/-- `DEFAULT_CHARSET` of `cifra/cipher/common.py`. -/
def DEFAULT_CHARSET : List Char :=
  "ABCDEFGHIJKLMNOPQRSTUVWXYZabcdefghijklmnopqrstuvwxyz1234567890 !?.".toList

/-- `Ciphers` of `cifra/cipher/common.py`. -/
inductive Ciphers where
  | CAESAR
  | TRANSPOSITION
  | AFFINE
  | VIGENERE
deriving DecidableEq, Repr

/-- `get_affine_key_parts` of `cifra/cipher/common.py`: Python `//` and `%`
are floored division and modulo (`Int.fdiv` / `Int.fmod`). -/
def get_affine_key_parts (key : ℤ) (charset_length : ℤ) : ℤ × ℤ :=
  (key.fdiv charset_length, key.fmod charset_length)

/-- `_get_offset_position` of `cifra/cipher/common.py`.  The Python function
returns `None` (and the caller then crashes with a `TypeError`) for the
`TRANSPOSITION` constant and for an affine decipher whose multiplying part
has no modular inverse; `none` models those paths. -/
def _get_offset_position (current_position key : ℤ) (advance : Bool)
    (cipher_used : Ciphers) (charset_length : ℤ) : Option ℤ :=
  match cipher_used with
  | .CAESAR | .VIGENERE =>
    some (if advance then current_position + key else current_position - key)
  | .AFFINE =>
    let parts := get_affine_key_parts key charset_length
    if advance then some (current_position * parts.1 + parts.2)
    else (Cryptomath.find_mod_inverse parts.1 charset_length).map
      (fun inv => (current_position - parts.2) * inv)
  | .TRANSPOSITION => none

/-- `_get_new_char_position` of `cifra/cipher/common.py`: the raw offset is
reduced `% charset_length`, which in Python always lands in
`[0, charset_length)`. -/
def _get_new_char_position (char : Char) (key : ℤ) (advance : Bool)
    (cipher_used : Ciphers) (charset : List Char) : Option ℕ :=
  let charset_length : ℤ := charset.length
  let char_position : ℤ := charset.indexOf char
  (_get_offset_position char_position key advance cipher_used charset_length).map
    (fun offset_position => (offset_position % charset_length).toNat)

/-- `_offset_text` of `cifra/cipher/common.py` (character-wise; `none`
models the `TypeError` crash when `_get_offset_position` returns `None`). -/
def _offset_text (text : List Char) (key : ℤ) (advance : Bool)
    (cipher_used : Ciphers) (charset : List Char) : Option (List Char) :=
  text.mapM (fun char =>
    if char ∈ charset then
      (_get_new_char_position char key advance cipher_used charset).map
        (fun new_char_position => charset.getD new_char_position 'a')
    else some char)

end Common

namespace Vigenere

/-- `DEFAULT_CHARSET` of `cifra/cipher/vigenere.py`. -/
def DEFAULT_CHARSET : List Char := "abcdefghijklmnopqrstuvwxyz".toList

/-- The `Vigenere` enum of `cifra/cipher/vigenere.py`. -/
inductive VigenereOp where
  | CIPHER
  | DECIPHER
deriving DecidableEq, Repr

/-- Python `str.find`: first index of `sub_char` in `charset`, `-1` when
absent (used for `charset.find(subkey_char)` in `_vigenere_offset`). -/
def strFindChar (charset : List Char) (sub_char : Char) : ℤ :=
  if sub_char ∈ charset then (charset.indexOf sub_char : ℤ) else -1

/-- The loop body of `_vigenere_offset` in `cifra/cipher/vigenere.py`,
written as structural recursion over the text with the running
`index`/`skip_accumulator` counters made explicit.  `key` is indexed at
`(index - skip_accumulator) % len(key)` (the Python code would raise
`ZeroDivisionError` for an empty key; `List.getD`'s default stands in for
that unreachable-with-valid-keys path).  A character whose lowercase form
is in the charset goes through `common._offset_text` with
`Ciphers.VIGENERE`, whose result for that constant is always `some`; the
`.getD` below extracts it (the `none` branch cannot occur). -/
def vigenereAux (key : List Char) (advance : Bool) (charset : List Char) :
    List Char → ℕ → ℕ → List Char
  | [], _, _ => []
  | char :: rest, index, skip_accumulator =>
    if char.toLower ∉ charset then
      char :: vigenereAux key advance charset rest (index + 1) (skip_accumulator + 1)
    else
      let subkey_char := key.getD ((index - skip_accumulator) % key.length) 'a'
      let subkey_offset := strFindChar charset subkey_char
      let offset_char :=
        if char.isLower then
          (Common._offset_text [char] subkey_offset advance .VIGENERE charset).getD [char]
        else
          (Common._offset_text [char.toLower] subkey_offset advance .VIGENERE charset).getD
            [char.toLower] |>.map Char.toUpper
      offset_char ++ vigenereAux key advance charset rest (index + 1) skip_accumulator

/-- `_vigenere_offset` of `cifra/cipher/vigenere.py` (`advance` is
`operation == Vigenere.CIPHER`). -/
def _vigenere_offset (text key : List Char) (operation : VigenereOp)
    (charset : List Char) : List Char :=
  vigenereAux key (operation = VigenereOp.CIPHER) charset text 0 0

/-- `cipher` of `cifra/cipher/vigenere.py`. -/
def cipher (text key charset : List Char) : List Char :=
  _vigenere_offset text key .CIPHER charset

/-- `decipher` of `cifra/cipher/vigenere.py`. -/
def decipher (ciphered_text key charset : List Char) : List Char :=
  _vigenere_offset ciphered_text key .DECIPHER charset

end Vigenere

namespace Affine

/-- `WrongAffineKeyCauses` of `cifra/cipher/affine.py`. -/
inductive WrongAffineKeyCauses where
  | multiplying_key_below_zero
  | multiplying_key_zero
  | adding_key_below_zero
  | adding_key_too_long
  | keys_not_relatively_prime
deriving DecidableEq, Repr

/-- `validate_key` of `cifra/cipher/affine.py`; `.error` is the raised
`WrongAffineKey` with its cause. -/
def validate_key (key : ℤ) (charset_length : ℤ) : Except WrongAffineKeyCauses Bool :=
  let multiplying_key := key.fdiv charset_length
  let adding_key := key.fmod charset_length
  if multiplying_key < 0 then .error .multiplying_key_below_zero
  else if multiplying_key = 0 then .error .multiplying_key_zero
  else if adding_key < 0 then .error .adding_key_below_zero
  else if adding_key > charset_length - 1 then .error .adding_key_too_long
  else if Cryptomath.gcd multiplying_key charset_length ≠ 1 then
    .error .keys_not_relatively_prime
  else .ok true

/-- `decipher` of `cifra/cipher/affine.py`: validate, then offset through
`common._offset_text` with `Ciphers.AFFINE` (inner `Option` models the
crash paths of `common._offset_text`). -/
def decipher (ciphered_text : List Char) (key : ℤ) (charset : List Char) :
    Except WrongAffineKeyCauses (Option (List Char)) :=
  match validate_key key charset.length with
  | .error cause => .error cause
  | .ok _ => .ok (Common._offset_text ciphered_text key false .AFFINE charset)

end Affine

namespace Dictionaries

/-- The persisted language store of `cifra/attack/database.py`, seen through
the read-only interface `cifra/attack/dictionaries.py` uses: the ordered
language table, each language paired with its stored word set. -/
abbrev Database := List (String × List (List Char))

/-- `IdentifiedLanguage` of `cifra/attack/dictionaries.py`.  The Python
dataclass stores `winner` and `winner_probability` as two `Optional`
fields that `identify_language` always sets from the same branch (both
`None` or both set); the model packs them into one `Option` pair. -/
structure IdentifiedLanguage where
  winner : Option (String × ℚ)
  candidates : List (String × ℚ)
deriving DecidableEq, Repr

/-- `IdentifiedLanguage.winner_probability` as the Python field reads. -/
def IdentifiedLanguage.winner_probability (il : IdentifiedLanguage) : Option ℚ :=
  il.winner.map Prod.snd

/-- `Dictionary.get_dictionaries_names` of `cifra/attack/dictionaries.py`. -/
def get_dictionaries_names (db : Database) : List String := db.map Prod.fst

/-- `Dictionary.open` of `cifra/attack/dictionaries.py` with `create=False`:
`none` models the raised `NotExistingLanguage`. -/
def Dictionary_open (language : String) (db : Database) : Option (List (List Char)) :=
  (db.find? (fun entry => entry.1 == language)).map Prod.snd

/-- `Dictionary.word_exists` of `cifra/attack/dictionaries.py` (normal flow:
`any(word == word_entry.word for word_entry in self._language_mapper.words)`). -/
def word_exists (dictionary_words : List (List Char)) (word : List Char) : Bool :=
  dictionary_words.any (fun word_entry => word == word_entry)

/-- `Dictionary.get_words_presence` of `cifra/attack/dictionaries.py`:
`presence = current_hits / total_words`; Python raises `ZeroDivisionError`
when `words` is empty, modelled by `none`. -/
def get_words_presence (words : List (List Char)) (dictionary_words : List (List Char)) :
    Option ℚ :=
  let total_words := words.length
  let current_hits := (words.filter (fun word => word_exists dictionary_words word)).length
  if total_words = 0 then none
  else some ((current_hits : ℚ) / (total_words : ℚ))

/-- Maximal letter runs of a text: the occurrences of the Python regex
`[^\W\d_]+` (for ASCII text: runs of `isAlpha` characters) in order. -/
def letterRuns : List Char → List (List Char)
  | [] => []
  | c :: rest =>
    if c.isAlpha then
      match rest, letterRuns rest with
      | r :: _, run :: runs => if r.isAlpha then (c :: run) :: runs else [c] :: run :: runs
      | _, tailRuns => [c] :: tailRuns
    else letterRuns rest

/-- `get_words_from_text` of `cifra/attack/dictionaries.py`: lowercase,
line breaks to spaces, regex word runs, collected into a set (modelled as
a duplicate-free list; only membership and cardinality of the set are ever
consumed). -/
def get_words_from_text (text : List Char) : List (List Char) :=
  let lowercase_text := text.map Char.toLower
  let lowercase_text := lowercase_text.map (fun c => if c = '\n' then ' ' else c)
  let lowercase_text := lowercase_text.map (fun c => if c = '\r' then ' ' else c)
  (letterRuns lowercase_text).dedup

/-- `get_word_pattern` of `cifra/attack/dictionaries.py`: each letter is
replaced by the index of its first occurrence (the pattern is kept as the
index list; the Python dot-joined rendering is a bijective formatting of
it). -/
def get_word_pattern (word : List Char) : List ℕ :=
  let chars_indexed := word.dedup
  word.map (fun char => chars_indexed.indexOf char)

/-- `get_candidates_frequency_at_language` of `cifra/attack/dictionaries.py`. -/
def get_candidates_frequency_at_language (words : List (List Char)) (language : String)
    (db : Database) : Option ℚ :=
  (Dictionary_open language db).bind (fun dictionary => get_words_presence words dictionary)

/-- `_get_candidates_frequency` of `cifra/attack/dictionaries.py`: one
presence score per stored language, in the store's enumeration order;
`none` when any per-language lookup raises. -/
def _get_candidates_frequency (words : List (List Char)) (db : Database) :
    Option (List (String × ℚ)) :=
  (get_dictionaries_names db).mapM (fun language =>
    (get_candidates_frequency_at_language words language db).map
      (fun presence => (language, presence)))

/-- One loop step of `_get_winner` in `cifra/attack/dictionaries.py`:
update `(current_winner, current_highest_frequency)` on strict `>`. -/
def winnerStep (current : Option String × ℚ) (candidate : String × ℚ) :
    Option String × ℚ :=
  if candidate.2 > current.2 then (some candidate.1, candidate.2) else current

/-- `_get_winner` of `cifra/attack/dictionaries.py`: fold with
`current_winner = None`, `current_highest_frequency = 0`. -/
def _get_winner (candidates : List (String × ℚ)) : Option String :=
  (candidates.foldl winnerStep ((none : Option String), (0 : ℚ))).1

/-- `identify_language` of `cifra/attack/dictionaries.py`. -/
def identify_language (text : List Char) (db : Database) : Option IdentifiedLanguage :=
  let words := get_words_from_text text
  (_get_candidates_frequency words db).map (fun candidates =>
    match _get_winner candidates with
    | some winner => ⟨some (winner, (candidates.lookup winner).getD 0), candidates⟩
    | none => ⟨none, candidates⟩)

/-- One fold step of `get_best_result` in `cifra/attack/dictionaries.py`:
skip entries with no winner, update on strictly higher probability. -/
def bestStep (current : ℤ × ℚ) (entry : ℤ × IdentifiedLanguage) : ℤ × ℚ :=
  match entry.2.winner with
  | none => current
  | some wp => if wp.2 > current.2 then (entry.1, wp.2) else current

/-- `get_best_result` of `cifra/attack/dictionaries.py`: starts from
`current_best_key = 0`, `current_best_probability = 0`. -/
def get_best_result (identified_languages : List (ℤ × IdentifiedLanguage)) : ℤ :=
  (identified_languages.foldl bestStep ((0 : ℤ), (0 : ℚ))).1

end Dictionaries

namespace SimpleAttacks

open Dictionaries

/-- `math.isclose(a, b, abs_tol=0.01)` as evaluated by
`_brute_force` in `cifra/attack/simple_attacks.py`: the default relative
tolerance is `1e-9`. -/
def isclose (a b : ℚ) : Bool :=
  |a - b| ≤ max ((1 / 1000000000) * max |a| |b|) (1 / 100)

/-- The early-exit test of `_brute_force`:
`identified_language.winner is not None and math.isclose(winner_probability, 1, abs_tol=0.01)`. -/
def earlyExitTriggered (il : IdentifiedLanguage) : Bool :=
  match il.winner with
  | none => false
  | some wp => isclose wp.2 1

/-- Loop of `_brute_force` in `cifra/attack/simple_attacks.py`: assess each
key in generation order, return immediately on the early-exit test,
otherwise accumulate `(key, IdentifiedLanguage)` pairs and finish with
`get_best_result`. -/
def bruteForceAux (assess : ℤ → ℤ × IdentifiedLanguage) :
    List ℤ → List (ℤ × IdentifiedLanguage) → ℤ
  | [], results => get_best_result results
  | key :: rest, results =>
    let r := assess key
    if earlyExitTriggered r.2 then r.1
    else bruteForceAux assess rest (results ++ [r])

/-- `_brute_force` of `cifra/attack/simple_attacks.py`. -/
def _brute_force (assess : ℤ → ℤ × IdentifiedLanguage) (key_generator : List ℤ) : ℤ :=
  bruteForceAux assess key_generator []

/-- The result gathering of `multiprocessing.Pool.map` as used by
`_brute_force_mp`: each worker writes its task's result into the slot of
that task's submission index; `completion_order` is the order in which the
workers finish.  When every index is eventually written, the collected
list is the submission-ordered one regardless of `completion_order`. -/
def collectInOrder {α : Type} (tasks : List α) (completion_order : List ℕ) (d : α) :
    List α :=
  completion_order.foldl (fun acc i => acc.set i (tasks.getD i d))
    (List.replicate tasks.length d)

/-- `_brute_force_mp` of `cifra/attack/simple_attacks.py`: all candidates
are assessed (no early exit), results are collected in submission order,
then `get_best_result` picks the key. -/
def _brute_force_mp (assess : ℤ → ℤ × IdentifiedLanguage) (key_generator : List ℤ)
    (completion_order : List ℕ) : ℤ :=
  get_best_result
    (collectInOrder (key_generator.map assess) completion_order
      (0, ⟨none, []⟩))

end SimpleAttacks

namespace AttackSubstitution

open Dictionaries

/-- The `Mapping` of `cifra/attack/substitution.py`: the `_mapping` dict,
one candidate `set` per cipherletter, in charset order.  (The `_charset`
attribute only fixes which keys exist; the operations below act on the
dict.) -/
abbrev Mapping := List (Char × Finset Char)

/-- `Mapping.__init__`: an empty candidate set for every charset letter. -/
def Mapping_init (charset : List Char) : Mapping :=
  charset.map (fun char => (char, (∅ : Finset Char)))

/-- Python `word_mapping[cipherletter]`: dict access by key.  Every mapping
the source folds shares the same charset key set, so the access never
raises `KeyError`; `∅` is the (unreachable there) default. -/
def wordLookup (word_mapping : Mapping) (cipherletter : Char) : Finset Char :=
  ((word_mapping.find? (fun entry => entry.1 == cipherletter)).map Prod.snd).getD ∅

/-- `Mapping.reduce_mapping` of `cifra/attack/substitution.py`: intersect
sets that have more than one candidate with a non-empty word set, assign a
copy of the word set to empty sets, leave everything else unchanged
(`if len(self[c]) > 1 and word_mapping[c]: ... elif not self[c] and
word_mapping[c]: ...`). -/
def reduce_mapping (self word_mapping : Mapping) : Mapping :=
  self.map (fun entry =>
    let s := entry.2
    let w := wordLookup word_mapping entry.1
    if 1 < s.card ∧ w ≠ ∅ then (entry.1, s ∩ w)
    else if s = ∅ ∧ w ≠ ∅ then (entry.1, w)
    else entry)

/-- Python's `[candidate for candidate in candidate_set][0]` as applied by
`clean_redundancies` to singleton sets: the sole member, extracted as the
set's minimum (identical on the singletons this is applied to). -/
def setFirst (candidate_set : Finset Char) : Option Char :=
  (candidate_set.min : Option Char)

/-- `Mapping.clean_redundancies` of `cifra/attack/substitution.py`:
`candidates_to_remove` is the sole member of every singleton set,
`sets_to_check` are the sets with more than one member (both computed
before any removal), and each candidate is removed from each checked
set. -/
def clean_redundancies (self : Mapping) : Mapping :=
  let candidates_to_remove : List Char :=
    (self.map Prod.snd).filterMap
      (fun candidate_set =>
        if candidate_set.card = 1 then setFirst candidate_set else none)
  self.map (fun entry =>
    if 1 < entry.2.card then
      (entry.1, candidates_to_remove.foldl (fun s candidate => s.erase candidate) entry.2)
    else entry)

/-- `_assess_substitution_key` of `cifra/attack/substitution.py`: decipher
with the key, score the recovered words against the language dictionary;
a `WrongSubstitutionKey` is silently converted to frequency `0`.  The
outer `Option` models the faults the `try` does not catch
(`NotExistingLanguage`, `ZeroDivisionError`). -/
def _assess_substitution_key (ciphered_text key : List Char) (language : String)
    (charset : List Char) (db : Database) : Option ℚ :=
  match Substitution.decipher ciphered_text key charset with
  | .error _ => some 0
  | .ok recovered_text =>
    get_candidates_frequency_at_language (get_words_from_text recovered_text) language db

end AttackSubstitution

namespace AttackAffine

open Dictionaries

/-- `_assess_affine_key` of `cifra/attack/affine.py`: a key rejected by
`validate_key` is scored as `(key, IdentifiedLanguage(None, None, dict()))`;
a valid key is deciphered and the result identified (the four
`in_memory`/`in_pool` variants all decipher then identify).  The outer
`Option` models the faults of the valid-key path (`TypeError` from a
`None` offset, dictionary faults). -/
def _assess_affine_key (ciphered_text : List Char) (key : ℤ) (charset : List Char)
    (db : Database) : Option (ℤ × IdentifiedLanguage) :=
  match Affine.validate_key key (charset.length : ℤ) with
  | .error _ => some (key, ⟨none, []⟩)
  | .ok _ =>
    match Common._offset_text ciphered_text key false .AFFINE charset with
    | none => none
    | some deciphered_text =>
      (identify_language deciphered_text db).map (fun il => (key, il))

end AttackAffine

namespace Frequency

/-- Modelled from the spec: `normalize_text` is imported by
`cifra/attack/frequency.py` from `cifra.attack.dictionaries` but is absent
from the source tree; per the spec's normalization contract the text is
lower-cased, line breaks are removed and only letter runs are kept, in
order. -/
def normalize_text (text : List Char) : List (List Char) :=
  let lowercase_text := text.map Char.toLower
  let lowercase_text := lowercase_text.map (fun c => if c = '\n' then ' ' else c)
  let lowercase_text := lowercase_text.map (fun c => if c = '\r' then ' ' else c)
  Dictionaries.letterRuns lowercase_text

/-- The `sequences` dict of `find_repeated_sequences`: patterns in
insertion order, each with its list of separations. -/
abbrev SeqDict := List (List Char × List ℕ)

/-- Dict lookup (`sequences[seq]` / `seq in sequences`). -/
def dictLookup (sequences : SeqDict) (seq : List Char) : Option (List ℕ) :=
  (sequences.find? (fun entry => entry.1 == seq)).map Prod.snd

/-- `sequences[seq] = [separation]` when the key is new, else
`sequences[seq].append(separation)`. -/
def dictAppendSep (sequences : SeqDict) (seq : List Char) (separation : ℕ) : SeqDict :=
  if (dictLookup sequences seq).isSome then
    sequences.map (fun entry =>
      if entry.1 == seq then (entry.1, entry.2 ++ [separation]) else entry)
  else sequences ++ [(seq, [separation])]

/-- Python `char_string.find(sequence_to_find, index)`: smallest position
`j ≥ index` where the pattern occurs in full (`none` for `-1`). -/
def pythonFind (char_string sequence_to_find : List Char) (index : ℕ) : Option ℕ :=
  (List.range' index (char_string.length + 1 - index)).find?
    (fun j => (char_string.drop j).take sequence_to_find.length == sequence_to_find)

/-- The `while index < char_string_length` loop of
`_find_adjacent_separations` in `cifra/attack/frequency.py` (fuel-indexed;
`index` grows by at least `length ≥ 1` per iteration, so
`char_string_length + 1` fuel always reaches the source's exit). -/
def adjacentLoop (char_string sequence_to_find : List Char)
    (length char_string_length : ℕ) :
    ℕ → ℕ → SeqDict → ℕ → SeqDict
  | _, _, sequences, 0 => sequences
  | index, previous_index, sequences, fuel + 1 =>
    if index < char_string_length then
      match pythonFind char_string sequence_to_find index with
      | none => sequences
      | some found =>
        adjacentLoop char_string sequence_to_find length char_string_length
          (found + length) found
          (dictAppendSep sequences sequence_to_find (found - previous_index)) fuel
    else sequences

/-- `_find_adjacent_separations` of `cifra/attack/frequency.py`.  Note the
source's quirk: the loop bound is `len(text)` (the raw text), not the
length of the normalized letter stream. -/
def _find_adjacent_separations (text : List Char) (length : ℕ) : SeqDict :=
  let normalized_words := normalize_text text
  let char_string := normalized_words.flatten
  let char_string_length := text.length
  (List.range char_string.length).foldl
    (fun sequences i =>
      let sequence_to_find := (char_string.drop i).take length
      if (dictLookup sequences sequence_to_find).isSome then sequences
      else
        adjacentLoop char_string sequence_to_find length char_string_length
          (i + length) i sequences (char_string_length + 1))
    []

/-- Python `range(start, stop, -1)`: `[start, start-1, ..., stop+1]`. -/
def pyRangeDown (start stop : ℕ) : List ℕ :=
  (List.range (start - stop)).map (fun t => start - t)

/-- The synthesized non-adjacent separations of one pattern:
`space + sum(sequences[sequence][i+1:n])` for each `i` and each
`n in range(sequence_length, i+1, -1)`. -/
def notAdjacentSpaces (spaces : List ℕ) : List ℕ :=
  (List.range spaces.length).flatMap (fun i =>
    (pyRangeDown spaces.length (i + 1)).map (fun n =>
      spaces.getD i 0 + ((spaces.drop (i + 1)).take (n - (i + 1))).sum))

/-- `_find_not_adjacent_separations` of `cifra/attack/frequency.py`: each
pattern with more than one adjacent separation gets the synthesized
non-adjacent separations appended. -/
def _find_not_adjacent_separations (sequences : SeqDict) : SeqDict :=
  sequences.map (fun entry =>
    if 1 < entry.2.length then (entry.1, entry.2 ++ notAdjacentSpaces entry.2)
    else entry)

/-- `find_repeated_sequences` of `cifra/attack/frequency.py`. -/
def find_repeated_sequences (text : List Char) (length : ℕ) : SeqDict :=
  _find_not_adjacent_separations (_find_adjacent_separations text length)

end Frequency

/-! ## Character-level facts about the lowercase charset and printable ASCII -/

theorem caesar_charset_nodup : Caesar.DEFAULT_CHARSET.Nodup := by decide

theorem caesar_charset_length : Caesar.DEFAULT_CHARSET.length = 26 := by decide

theorem charset_char_facts : ∀ x ∈ Caesar.DEFAULT_CHARSET,
    x.toLower = x ∧ x.isLower = true ∧ x.toUpper.toLower = x ∧ x.toUpper.isLower = false := by
  decide

theorem printable_lower_toLower : ∀ c ∈ printableAscii, c.isLower = true → c.toLower = c := by
  decide

theorem printable_upper_of_toLower : ∀ c ∈ printableAscii, c.isLower = false →
    c.toLower ∈ Caesar.DEFAULT_CHARSET → c.toLower.toUpper = c := by
  decide

/-! ## Caesar round trip -/

theorem caesar_offsetChar_true_of_mem (key : ℤ) (cs : List Char) (c : Char)
    (h : c.toLower ∈ cs) :
    Caesar.offsetChar key true cs c =
      (if c.isLower then cs.getD ((((cs.indexOf c.toLower : ℕ) : ℤ) + key) % (cs.length : ℤ)).toNat 'a'
       else (cs.getD ((((cs.indexOf c.toLower : ℕ) : ℤ) + key) % (cs.length : ℤ)).toNat 'a').toUpper) := by
  simp [Caesar.offsetChar, h]

theorem caesar_offsetChar_false_of_mem (key : ℤ) (cs : List Char) (c : Char)
    (h : c.toLower ∈ cs) :
    Caesar.offsetChar key false cs c =
      (if c.isLower then
        cs.getD (if 0 ≤ ((cs.indexOf c.toLower : ℕ) : ℤ) - key
          then ((cs.indexOf c.toLower : ℕ) : ℤ) - key
          else (cs.length : ℤ) - (|((cs.indexOf c.toLower : ℕ) : ℤ) - key| % (cs.length : ℤ))).toNat 'a'
       else (cs.getD (if 0 ≤ ((cs.indexOf c.toLower : ℕ) : ℤ) - key
          then ((cs.indexOf c.toLower : ℕ) : ℤ) - key
          else (cs.length : ℤ) - (|((cs.indexOf c.toLower : ℕ) : ℤ) - key| % (cs.length : ℤ))).toNat 'a').toUpper) := by
  simp [Caesar.offsetChar, h]

theorem caesar_offsetChar_of_not_mem (key : ℤ) (advance : Bool) (cs : List Char) (c : Char)
    (h : c.toLower ∉ cs) : Caesar.offsetChar key advance cs c = c := by
  simp [Caesar.offsetChar, h]

theorem caesar_offsetChar_roundtrip (key : ℤ) (h0 : 0 ≤ key) (h26 : key < 26)
    (c : Char) (hc : c ∈ printableAscii) :
    Caesar.offsetChar key false Caesar.DEFAULT_CHARSET
      (Caesar.offsetChar key true Caesar.DEFAULT_CHARSET c) = c := by
  by_cases hmem : c.toLower ∈ Caesar.DEFAULT_CHARSET
  · have hp : Caesar.DEFAULT_CHARSET.indexOf c.toLower < 26 := by
      have := List.indexOf_lt_length.2 hmem
      simpa [caesar_charset_length] using this
    set p : ℕ := Caesar.DEFAULT_CHARSET.indexOf c.toLower with hp_def
    set q : ℤ := ((p : ℤ) + key) % 26 with hq_def
    have hq0 : 0 ≤ q := Int.emod_nonneg _ (by norm_num)
    have hq26 : q < 26 := Int.emod_lt_of_pos _ (by norm_num)
    have hqlt : q.toNat < Caesar.DEFAULT_CHARSET.length := by
      rw [caesar_charset_length]; omega
    have hcipher : Caesar.offsetChar key true Caesar.DEFAULT_CHARSET c =
        (if c.isLower then Caesar.DEFAULT_CHARSET.getD q.toNat 'a'
         else (Caesar.DEFAULT_CHARSET.getD q.toNat 'a').toUpper) := by
      rw [caesar_offsetChar_true_of_mem key _ c hmem]
      rw [caesar_charset_length, ← hp_def]
      simp only [Nat.cast_ofNat]
    set nc := Caesar.DEFAULT_CHARSET.getD q.toNat 'a' with hnc_def
    have hnc_elem : nc = Caesar.DEFAULT_CHARSET[q.toNat] := List.getD_eq_getElem _ _ hqlt
    have hnc_mem : nc ∈ Caesar.DEFAULT_CHARSET := hnc_elem ▸ List.getElem_mem hqlt
    obtain ⟨hnc_low, hnc_isLow, hnc_upLow, hnc_upIsLow⟩ := charset_char_facts nc hnc_mem
    have hnc_idx : Caesar.DEFAULT_CHARSET.indexOf nc = q.toNat := by
      rw [hnc_elem]
      exact List.indexOf_getElem caesar_charset_nodup _ _
    have harith : (if 0 ≤ (q.toNat : ℤ) - key then (q.toNat : ℤ) - key
        else (26 : ℤ) - (|(q.toNat : ℤ) - key| % 26)) = (p : ℤ) := by
      have hqq : (q.toNat : ℤ) = q := Int.toNat_of_nonneg hq0
      by_cases hcase : 0 ≤ (q.toNat : ℤ) - key
      · rw [if_pos hcase, hqq]
        omega
      · rw [if_neg hcase, abs_of_neg (by omega : (q.toNat : ℤ) - key < 0), hqq]
        omega
    have hcs_p : Caesar.DEFAULT_CHARSET.getD p 'a' = c.toLower := by
      have hplen : p < Caesar.DEFAULT_CHARSET.length := by rw [caesar_charset_length]; exact hp
      rw [List.getD_eq_getElem _ _ hplen]
      exact List.getElem_indexOf hplen
    have hdec : ∀ d : Char, d.toLower = nc →
        Caesar.offsetChar key false Caesar.DEFAULT_CHARSET d =
          (if d.isLower then Caesar.DEFAULT_CHARSET.getD p 'a'
           else (Caesar.DEFAULT_CHARSET.getD p 'a').toUpper) := by
      intro d hd
      rw [caesar_offsetChar_false_of_mem key _ d (by rw [hd]; exact hnc_mem)]
      rw [caesar_charset_length, hd, hnc_idx]
      simp only [Nat.cast_ofNat]
      rw [harith, Int.toNat_natCast]
    by_cases hl : c.isLower
    · rw [hcipher, if_pos hl, hdec nc hnc_low, if_pos hnc_isLow, hcs_p]
      exact printable_lower_toLower c hc hl
    · rw [hcipher, if_neg hl, hdec nc.toUpper hnc_upLow,
        if_neg (by rw [hnc_upIsLow]; exact Bool.false_ne_true), hcs_p]
      exact printable_upper_of_toLower c hc (by simpa using hl) hmem
  · rw [caesar_offsetChar_of_not_mem key true _ c hmem]
    exact caesar_offsetChar_of_not_mem key false _ c hmem

theorem caesar_roundtrip (text : List Char) (htext : ∀ c ∈ text, c ∈ printableAscii)
    (key : ℤ) (h0 : 0 ≤ key) (h26 : key < 26) (charset charset2 : List Char) :
    Caesar.decipher (Caesar.cipher text key charset) key charset2 = text := by
  unfold Caesar.cipher Caesar.decipher Caesar._offset_text
  rw [List.map_map]
  have h : ∀ c ∈ text,
      (Caesar.offsetChar key false Caesar.DEFAULT_CHARSET ∘
        Caesar.offsetChar key true Caesar.DEFAULT_CHARSET) c = id c := by
    intro c hc
    exact caesar_offsetChar_roundtrip key h0 h26 c (htext c hc)
  rw [List.map_congr_left h, List.map_id]

/-! ## Substitution round trip -/

theorem subst_charset_eq : Substitution.DEFAULT_CHARSET = Caesar.DEFAULT_CHARSET := rfl

theorem subst_decipherChar_of_mem (key cs : List Char) (d : Char)
    (h : d.toLower ∈ key) :
    Substitution.decipherChar key cs d =
      if d.isLower then cs.getD (key.indexOf d.toLower) d
      else (cs.getD (key.indexOf d.toLower) d).toUpper := by
  simp [Substitution.decipherChar, h]

theorem subst_char_roundtrip (key : List Char)
    (hperm : key.Perm Substitution.DEFAULT_CHARSET)
    (c : Char) (hc : c ∈ printableAscii) :
    Substitution.decipherChar key Substitution.DEFAULT_CHARSET
      (Substitution.cipherChar key Substitution.DEFAULT_CHARSET c) = c := by
  have hlen : key.length = 26 := by
    rw [hperm.length_eq, subst_charset_eq, caesar_charset_length]
  have hnodup : key.Nodup := hperm.nodup_iff.2 (subst_charset_eq ▸ caesar_charset_nodup)
  have hmem_iff : ∀ x, x ∈ key ↔ x ∈ Substitution.DEFAULT_CHARSET := fun x => hperm.mem_iff
  by_cases hmem : c.toLower ∈ Substitution.DEFAULT_CHARSET
  · have hp : Substitution.DEFAULT_CHARSET.indexOf c.toLower < 26 := by
      have := List.indexOf_lt_length.2 hmem
      simpa [subst_charset_eq, caesar_charset_length] using this
    set p : ℕ := Substitution.DEFAULT_CHARSET.indexOf c.toLower with hp_def
    have hplen : p < key.length := by rw [hlen]; exact hp
    set kc := key.getD p c with hkc_def
    have hkc_elem : kc = key[p] := List.getD_eq_getElem _ _ hplen
    have hkc_memkey : kc ∈ key := hkc_elem ▸ List.getElem_mem hplen
    have hkc_mem : kc ∈ Caesar.DEFAULT_CHARSET := by
      rw [← subst_charset_eq]; exact (hmem_iff kc).1 hkc_memkey
    obtain ⟨hkc_low, hkc_isLow, hkc_upLow, hkc_upIsLow⟩ := charset_char_facts kc hkc_mem
    have hkc_idx : key.indexOf kc = p := by
      rw [hkc_elem]
      exact List.indexOf_getElem hnodup _ _
    have hcs_p : ∀ d : Char, Substitution.DEFAULT_CHARSET.getD p d = c.toLower := by
      intro d
      have hplen' : p < Substitution.DEFAULT_CHARSET.length := by
        rw [subst_charset_eq, caesar_charset_length]; exact hp
      rw [List.getD_eq_getElem _ _ hplen']
      exact List.getElem_indexOf hplen'
    have hcipher : Substitution.cipherChar key Substitution.DEFAULT_CHARSET c =
        if c.isLower then kc else kc.toUpper := by
      simp only [Substitution.cipherChar, if_pos hmem, ← hp_def, ← hkc_def]
    by_cases hl : c.isLower
    · rw [hcipher, if_pos hl]
      have h1 : kc.toLower ∈ key := by rw [hkc_low]; exact hkc_memkey
      rw [subst_decipherChar_of_mem key _ kc h1, hkc_low, hkc_idx, if_pos hkc_isLow, hcs_p]
      exact printable_lower_toLower c hc hl
    · rw [hcipher, if_neg hl]
      have h1 : kc.toUpper.toLower ∈ key := by rw [hkc_upLow]; exact hkc_memkey
      rw [subst_decipherChar_of_mem key _ kc.toUpper h1, hkc_upLow, hkc_idx,
        if_neg (by rw [hkc_upIsLow]; exact Bool.false_ne_true), hcs_p]
      exact printable_upper_of_toLower c hc (by simpa using hl) hmem
  · have h1 : c.toLower ∉ key := fun h => hmem ((hmem_iff c.toLower).1 h)
    simp only [Substitution.cipherChar, if_neg hmem, Substitution.decipherChar, if_neg h1]

theorem substitution_roundtrip (text : List Char)
    (htext : ∀ c ∈ text, c ∈ printableAscii) (key : List Char)
    (hperm : key.Perm Substitution.DEFAULT_CHARSET) :
    (Substitution.cipher text key Substitution.DEFAULT_CHARSET).bind
      (fun ct => Substitution.decipher ct key Substitution.DEFAULT_CHARSET) =
      Except.ok text := by
  have hlen : ¬ key.length ≠ Substitution.DEFAULT_CHARSET.length := by
    simp [hperm.length_eq]
  have hnodup : ¬ ¬ key.Nodup := by
    simp [hperm.nodup_iff.2 (subst_charset_eq ▸ caesar_charset_nodup)]
  have hcheck : Substitution.check_substitution_key key Substitution.DEFAULT_CHARSET = none := by
    simp only [Substitution.check_substitution_key, if_neg hlen, if_neg hnodup]
  simp only [Substitution.cipher, Substitution.decipher, hcheck, Except.bind]
  rw [List.map_map]
  have h : ∀ c ∈ text,
      (Substitution.decipherChar key Substitution.DEFAULT_CHARSET ∘
        Substitution.cipherChar key Substitution.DEFAULT_CHARSET) c = id c := by
    intro c hc
    exact subst_char_roundtrip key hperm c (htext c hc)
  rw [List.map_congr_left h, List.map_id]

/-! ## Vigenere round trip -/

theorem vig_charset_eq : Vigenere.DEFAULT_CHARSET = Caesar.DEFAULT_CHARSET := rfl

theorem common_offset_single_vigenere (ch : Char) (k : ℤ) (adv : Bool)
    (cs : List Char) (h : ch ∈ cs) :
    Common._offset_text [ch] k adv .VIGENERE cs =
      some [cs.getD ((((if adv then ((cs.indexOf ch : ℕ) : ℤ) + k
        else ((cs.indexOf ch : ℕ) : ℤ) - k)) % ((cs.length : ℕ) : ℤ)).toNat) 'a'] := by
  cases adv <;>
    simp [Common._offset_text, Common._get_new_char_position, Common._get_offset_position,
      List.mapM.loop, h]

theorem vig_pos_arith (p : ℕ) (hp : p < 26) (off : ℤ) :
    ((((((p : ℤ) + off) % 26).toNat : ℤ) - off) % 26).toNat = p := by
  have h1 : 0 ≤ ((p : ℤ) + off) % 26 := Int.emod_nonneg _ (by norm_num)
  have h2 : ((p : ℤ) + off) % 26 < 26 := Int.emod_lt_of_pos _ (by norm_num)
  rw [Int.toNat_of_nonneg h1]
  omega

theorem vigenereAux_roundtrip (key : List Char) (text : List Char)
    (htext : ∀ c ∈ text, c ∈ printableAscii) :
    ∀ index skip_acc : ℕ,
      Vigenere.vigenereAux key false Vigenere.DEFAULT_CHARSET
        (Vigenere.vigenereAux key true Vigenere.DEFAULT_CHARSET text index skip_acc)
        index skip_acc = text := by
  induction text with
  | nil => intro index skip_acc; rfl
  | cons ch rest ih =>
    intro index skip_acc
    have hch : ch ∈ printableAscii := htext ch (List.mem_cons_self _ _)
    have hrest : ∀ c ∈ rest, c ∈ printableAscii :=
      fun c hc => htext c (List.mem_cons_of_mem _ hc)
    by_cases hmem : ch.toLower ∈ Vigenere.DEFAULT_CHARSET
    · have hnn : ¬ (ch.toLower ∉ Vigenere.DEFAULT_CHARSET) := not_not_intro hmem
      set sk := key.getD ((index - skip_acc) % key.length) 'a' with hsk_def
      set off := Vigenere.strFindChar Vigenere.DEFAULT_CHARSET sk with hoff_def
      have hp26 : ∀ d : Char, d ∈ Vigenere.DEFAULT_CHARSET →
          Vigenere.DEFAULT_CHARSET.indexOf d < 26 := by
        intro d hd
        have := List.indexOf_lt_length.2 hd
        simpa [vig_charset_eq, caesar_charset_length] using this
      -- the ciphered character produced from a lowercase in-charset character
      have hstep : ∀ d : Char, d ∈ Vigenere.DEFAULT_CHARSET →
          ∃ nc, (Common._offset_text [d] off true .VIGENERE Vigenere.DEFAULT_CHARSET).getD [d]
              = [nc]
            ∧ nc ∈ Vigenere.DEFAULT_CHARSET
            ∧ (Common._offset_text [nc] off false .VIGENERE Vigenere.DEFAULT_CHARSET).getD [nc]
              = [Vigenere.DEFAULT_CHARSET.getD (Vigenere.DEFAULT_CHARSET.indexOf d) 'a'] := by
        intro d hd
        set p : ℕ := Vigenere.DEFAULT_CHARSET.indexOf d with hpd
        have hp : p < 26 := hp26 d hd
        set q : ℤ := ((p : ℤ) + off) % 26 with hq_def
        have hq0 : 0 ≤ q := Int.emod_nonneg _ (by norm_num)
        have hq26 : q < 26 := Int.emod_lt_of_pos _ (by norm_num)
        have hqlt : q.toNat < Vigenere.DEFAULT_CHARSET.length := by
          rw [vig_charset_eq, caesar_charset_length]; omega
        set nc := Vigenere.DEFAULT_CHARSET.getD q.toNat 'a' with hnc_def
        have hnc_elem : nc = Vigenere.DEFAULT_CHARSET[q.toNat] := List.getD_eq_getElem _ _ hqlt
        have hnc_mem : nc ∈ Vigenere.DEFAULT_CHARSET := hnc_elem ▸ List.getElem_mem hqlt
        have hnc_idx : Vigenere.DEFAULT_CHARSET.indexOf nc = q.toNat := by
          rw [hnc_elem]
          exact List.indexOf_getElem (vig_charset_eq ▸ caesar_charset_nodup) _ _
        have hlen26 : ((Vigenere.DEFAULT_CHARSET.length : ℕ) : ℤ) = 26 := by decide
        refine ⟨nc, ?_, hnc_mem, ?_⟩
        · have e := common_offset_single_vigenere d off true _ hd
          rw [if_pos rfl] at e
          rw [e, Option.getD_some, hlen26, ← hpd, ← hq_def, ← hnc_def]
        · have e := common_offset_single_vigenere nc off false _ hnc_mem
          rw [if_neg Bool.false_ne_true] at e
          rw [e, Option.getD_some, hlen26, hnc_idx]
          have harith : ((q.toNat : ℤ) - off) % 26 = (p : ℤ) := by
            rw [Int.toNat_of_nonneg hq0]
            omega
          rw [harith, Int.toNat_natCast]
      by_cases hl : ch.isLower
      · have hch_low : ch.toLower = ch := printable_lower_toLower ch hch hl
        have hch_mem : ch ∈ Vigenere.DEFAULT_CHARSET := hch_low ▸ hmem
        obtain ⟨nc, hcip, hnc_mem, hdecip⟩ := hstep ch hch_mem
        obtain ⟨hnc_low, hnc_isLow, -, -⟩ :=
          charset_char_facts nc (vig_charset_eq ▸ hnc_mem)
        have hcs_p : Vigenere.DEFAULT_CHARSET.getD (Vigenere.DEFAULT_CHARSET.indexOf ch) 'a'
            = ch := by
          have hplen : Vigenere.DEFAULT_CHARSET.indexOf ch < Vigenere.DEFAULT_CHARSET.length := by
            rw [vig_charset_eq, caesar_charset_length]; exact hp26 ch hch_mem
          rw [List.getD_eq_getElem _ _ hplen]
          exact List.getElem_indexOf hplen
        -- unfold the cipher side
        have e1 : Vigenere.vigenereAux key true Vigenere.DEFAULT_CHARSET (ch :: rest)
            index skip_acc =
            nc :: Vigenere.vigenereAux key true Vigenere.DEFAULT_CHARSET rest
              (index + 1) skip_acc := by
          simp only [Vigenere.vigenereAux, if_neg hnn, if_pos hl, ← hsk_def, ← hoff_def, hcip]
          rfl
        have hnc_nn : ¬ (nc.toLower ∉ Vigenere.DEFAULT_CHARSET) :=
          not_not_intro (by rw [hnc_low]; exact hnc_mem)
        have e2 : Vigenere.vigenereAux key false Vigenere.DEFAULT_CHARSET
            (nc :: Vigenere.vigenereAux key true Vigenere.DEFAULT_CHARSET rest
              (index + 1) skip_acc) index skip_acc =
            ch :: Vigenere.vigenereAux key false Vigenere.DEFAULT_CHARSET
              (Vigenere.vigenereAux key true Vigenere.DEFAULT_CHARSET rest
                (index + 1) skip_acc) (index + 1) skip_acc := by
          simp only [Vigenere.vigenereAux, if_neg hnc_nn, if_pos hnc_isLow,
            ← hsk_def, ← hoff_def, hnc_low, hdecip, hcs_p]
          rw [if_neg (not_not_intro hnc_mem)]
          rfl
        rw [e1, e2, ih hrest (index + 1) skip_acc]
      · have hch_low_mem : ch.toLower ∈ Vigenere.DEFAULT_CHARSET := hmem
        obtain ⟨nc, hcip, hnc_mem, hdecip⟩ := hstep ch.toLower hch_low_mem
        obtain ⟨hnc_low, hnc_isLow, hnc_upLow, hnc_upIsLow⟩ :=
          charset_char_facts nc (vig_charset_eq ▸ hnc_mem)
        have hcs_p : Vigenere.DEFAULT_CHARSET.getD
            (Vigenere.DEFAULT_CHARSET.indexOf ch.toLower) 'a' = ch.toLower := by
          have hplen : Vigenere.DEFAULT_CHARSET.indexOf ch.toLower <
              Vigenere.DEFAULT_CHARSET.length := by
            rw [vig_charset_eq, caesar_charset_length]; exact hp26 _ hch_low_mem
          rw [List.getD_eq_getElem _ _ hplen]
          exact List.getElem_indexOf hplen
        have e1 : Vigenere.vigenereAux key true Vigenere.DEFAULT_CHARSET (ch :: rest)
            index skip_acc =
            nc.toUpper :: Vigenere.vigenereAux key true Vigenere.DEFAULT_CHARSET rest
              (index + 1) skip_acc := by
          simp only [Vigenere.vigenereAux, if_neg hnn, if_neg hl, ← hsk_def, ← hoff_def, hcip]
          rfl
        have hup_nn : ¬ (nc.toUpper.toLower ∉ Vigenere.DEFAULT_CHARSET) :=
          not_not_intro (by rw [hnc_upLow]; exact hnc_mem)
        have e2 : Vigenere.vigenereAux key false Vigenere.DEFAULT_CHARSET
            (nc.toUpper :: Vigenere.vigenereAux key true Vigenere.DEFAULT_CHARSET rest
              (index + 1) skip_acc) index skip_acc =
            ch :: Vigenere.vigenereAux key false Vigenere.DEFAULT_CHARSET
              (Vigenere.vigenereAux key true Vigenere.DEFAULT_CHARSET rest
                (index + 1) skip_acc) (index + 1) skip_acc := by
          have hupper : ch.toLower.toUpper = ch :=
            printable_upper_of_toLower ch hch (by simpa using hl) (vig_charset_eq ▸ hmem)
          simp only [Vigenere.vigenereAux]
          rw [if_neg hup_nn]
          simp only [← hsk_def, ← hoff_def]
          rw [if_neg (show ¬ (nc.toUpper.isLower = true) by
            rw [hnc_upIsLow]; exact Bool.false_ne_true)]
          rw [hnc_upLow, hdecip, hcs_p]
          simp only [List.map_cons, List.map_nil, hupper]
          rfl
        rw [e1, e2, ih hrest (index + 1) skip_acc]
    · have e1 : Vigenere.vigenereAux key true Vigenere.DEFAULT_CHARSET (ch :: rest)
          index skip_acc =
          ch :: Vigenere.vigenereAux key true Vigenere.DEFAULT_CHARSET rest
            (index + 1) (skip_acc + 1) := by
        simp only [Vigenere.vigenereAux, if_pos hmem]
      have e2 : Vigenere.vigenereAux key false Vigenere.DEFAULT_CHARSET
          (ch :: Vigenere.vigenereAux key true Vigenere.DEFAULT_CHARSET rest
            (index + 1) (skip_acc + 1)) index skip_acc =
          ch :: Vigenere.vigenereAux key false Vigenere.DEFAULT_CHARSET
            (Vigenere.vigenereAux key true Vigenere.DEFAULT_CHARSET rest
              (index + 1) (skip_acc + 1)) (index + 1) (skip_acc + 1) := by
        simp only [Vigenere.vigenereAux, if_pos hmem]
      rw [e1, e2, ih hrest (index + 1) (skip_acc + 1)]

theorem vigenere_roundtrip (text : List Char)
    (htext : ∀ c ∈ text, c ∈ printableAscii) (key : List Char) (hkey : key ≠ []) :
    Vigenere.decipher (Vigenere.cipher text key Vigenere.DEFAULT_CHARSET) key
      Vigenere.DEFAULT_CHARSET = text := by
  unfold Vigenere.cipher Vigenere.decipher Vigenere._vigenere_offset
  simp only [reduceCtorEq, if_true, if_false]
  exact vigenereAux_roundtrip key text htext 0 0

/-- C10: the Caesar `cipher` and `decipher` functions produce output
independent of their charset argument: for every text, key and charset
they equal the default-charset runs, because `_offset_text` is always
invoked with the default 26-letter charset. -/
theorem c10_caesar_charset_ignored (text : List Char) (key : ℤ) (charset : List Char) :
    Caesar.cipher text key charset = Caesar.cipher text key Caesar.DEFAULT_CHARSET ∧
    Caesar.decipher text key charset = Caesar.decipher text key Caesar.DEFAULT_CHARSET :=
  ⟨rfl, rfl⟩

/-- C7 counterexample: the substitution key `"!bcdefghijklmnopqrstuvwxyz"`
passes the cipher's own validity rules (right length, no repeats), yet on
the printable ASCII text `"!"` the decipher-of-cipher round trip returns
`"A"`, not `"!"`: the round trip fails for a valid key. -/
theorem c7_counterexample :
    Substitution.check_substitution_key "!bcdefghijklmnopqrstuvwxyz".toList
        Substitution.DEFAULT_CHARSET = none
    ∧ '!' ∈ printableAscii
    ∧ (Substitution.cipher ['!'] "!bcdefghijklmnopqrstuvwxyz".toList
        Substitution.DEFAULT_CHARSET).bind
        (fun ct => Substitution.decipher ct "!bcdefghijklmnopqrstuvwxyz".toList
          Substitution.DEFAULT_CHARSET) = Except.ok ['A']
    ∧ (['A'] : List Char) ≠ ['!'] := by
  refine ⟨by decide, by decide, rfl, by decide⟩

/-- C7 (amended): the decipher-of-cipher round trip holds for every cipher
family on ASCII printable text over the lowercase default charset, with
the key space the round trip actually supports: Caesar keys in
`[0, 26)` (the full charset-index key space; larger keys hit the source's
out-of-range `charset_length - (abs(offset) % charset_length)` index),
substitution keys that are permutations of the charset (merely valid keys
may map charset letters to symbols already present in printable text,
breaking injectivity of the extended text transform), and non-empty
Vigenere keys. -/
theorem c7_roundtrip_amended :
    (∀ (text : List Char), (∀ c ∈ text, c ∈ printableAscii) →
      ∀ (key : ℤ), 0 ≤ key → key < 26 → ∀ charset charset2 : List Char,
        Caesar.decipher (Caesar.cipher text key charset) key charset2 = text)
    ∧ (∀ (text : List Char), (∀ c ∈ text, c ∈ printableAscii) →
      ∀ (key : List Char), key.Perm Substitution.DEFAULT_CHARSET →
        (Substitution.cipher text key Substitution.DEFAULT_CHARSET).bind
          (fun ct => Substitution.decipher ct key Substitution.DEFAULT_CHARSET) =
          Except.ok text)
    ∧ (∀ (text : List Char), (∀ c ∈ text, c ∈ printableAscii) →
      ∀ (key : List Char), key ≠ [] →
        Vigenere.decipher (Vigenere.cipher text key Vigenere.DEFAULT_CHARSET) key
          Vigenere.DEFAULT_CHARSET = text) :=
  ⟨fun t ht k h0 h26 c1 c2 => caesar_roundtrip t ht k h0 h26 c1 c2,
   fun t ht k hp => substitution_roundtrip t ht k hp,
   fun t ht k hk => vigenere_roundtrip t ht k hk⟩

/-- C7 witness: the amended round trip instantiated on the text `"Az!"`
with Caesar key `3`, the shifted substitution key and the Vigenere key
`"key"`. -/
theorem c7_witness :
    ((∀ c ∈ ("Az!".toList), c ∈ printableAscii) ∧ (0 : ℤ) ≤ 3 ∧ (3 : ℤ) < 26 ∧
      Caesar.decipher (Caesar.cipher "Az!".toList 3 Caesar.DEFAULT_CHARSET) 3
        Caesar.DEFAULT_CHARSET = "Az!".toList)
    ∧ (("bcdefghijklmnopqrstuvwxyza".toList).Perm Substitution.DEFAULT_CHARSET ∧
      (Substitution.cipher "Az!".toList "bcdefghijklmnopqrstuvwxyza".toList
        Substitution.DEFAULT_CHARSET).bind (fun ct => Substitution.decipher ct
          "bcdefghijklmnopqrstuvwxyza".toList Substitution.DEFAULT_CHARSET) =
        Except.ok "Az!".toList)
    ∧ (("key".toList) ≠ ([] : List Char) ∧
      Vigenere.decipher (Vigenere.cipher "Az!".toList "key".toList Vigenere.DEFAULT_CHARSET)
        "key".toList Vigenere.DEFAULT_CHARSET = "Az!".toList) :=
  ⟨⟨by decide, by decide, by decide,
      c7_roundtrip_amended.1 _ (by decide) 3 (by decide) (by decide) _ _⟩,
   ⟨by decide, c7_roundtrip_amended.2.1 _ (by decide) _ (by decide)⟩,
   ⟨by decide, c7_roundtrip_amended.2.2 _ (by decide) _ (by decide)⟩⟩

/-- C8: assessment functions convert a candidate key that violates the
cipher's own validity rules into a zero/no-match score instead of
propagating the failure: the affine assessor returns an
`IdentifiedLanguage` with no winner, and the substitution assessor
returns probability 0. -/
theorem c8_invalid_key_scored_zero :
    (∀ (ciphered_text : List Char) (key : ℤ) (charset : List Char)
        (db : Dictionaries.Database) (cause : Affine.WrongAffineKeyCauses),
      Affine.validate_key key (charset.length : ℤ) = .error cause →
        AttackAffine._assess_affine_key ciphered_text key charset db =
          some (key, ⟨none, []⟩))
    ∧ (∀ (ciphered_text key : List Char) (language : String) (charset : List Char)
        (db : Dictionaries.Database) (cause : Substitution.WrongSubstitutionKeyCauses),
      Substitution.check_substitution_key key charset = some cause →
        AttackSubstitution._assess_substitution_key ciphered_text key language charset db =
          some 0) := by
  constructor
  · intro ciphered_text key charset db cause h
    unfold AttackAffine._assess_affine_key
    rw [h]
  · intro ciphered_text key language charset db cause h
    unfold AttackSubstitution._assess_substitution_key Substitution.decipher
    rw [h]

/-- C8 witness: affine key `5` over a 26-symbol charset has multiplying
part `0` (invalid) and is scored as a no-winner result; the two-letter
substitution key has the wrong length and is scored `0`. -/
theorem c8_witness :
    (Affine.validate_key 5 ((Substitution.DEFAULT_CHARSET).length : ℤ) =
        .error Affine.WrongAffineKeyCauses.multiplying_key_zero ∧
      AttackAffine._assess_affine_key [] 5 Substitution.DEFAULT_CHARSET [] =
        some (5, ⟨none, []⟩))
    ∧ (Substitution.check_substitution_key "ab".toList Substitution.DEFAULT_CHARSET =
        some Substitution.WrongSubstitutionKeyCauses.wrong_key_length ∧
      AttackSubstitution._assess_substitution_key [] "ab".toList "english"
        Substitution.DEFAULT_CHARSET [] = some 0) :=
  ⟨⟨rfl, c8_invalid_key_scored_zero.1 [] 5 _ [] _ rfl⟩,
   ⟨by decide, c8_invalid_key_scored_zero.2 [] ("ab".toList) "english"
      Substitution.DEFAULT_CHARSET [] Substitution.WrongSubstitutionKeyCauses.wrong_key_length
      (by decide)⟩⟩

/-! ## C1: empty-word-set presence and wordless-text identification -/

/-- C1 counterexample: `get_words_presence` on an empty word set hits the
unguarded `current_hits / total_words` division (a `ZeroDivisionError`,
modelled by `none`, not a normal return of probability 0), and
`identify_language` on a wordless text propagates that fault as soon as
one language is stored. -/
theorem c1_counterexample :
    Dictionaries.get_words_presence [] [['a']] = none
    ∧ Dictionaries.identify_language [] [("english", [['a']])] = none := ⟨rfl, rfl⟩

theorem c1_mapM_fail (lang : String) (words : List (List Char)) (rest : Dictionaries.Database) :
    Dictionaries.get_candidates_frequency_at_language [] lang ((lang, words) :: rest) = none := by
  simp [Dictionaries.get_candidates_frequency_at_language, Dictionaries.Dictionary_open,
    Dictionaries.get_words_presence, List.find?]

/-- C1 (amended): `get_words_presence` on an empty word set always raises
the division fault (`none` in the model), never a probability-0 result;
consequently `identify_language` on a text with zero words terminates
normally only when the language store is empty (returning the empty
distribution with no winner), and raises otherwise. -/
theorem c1_empty_input_amended :
    (∀ dictionary_words : List (List Char),
      Dictionaries.get_words_presence [] dictionary_words = none)
    ∧ (∀ (text : List Char) (db : Dictionaries.Database),
      Dictionaries.get_words_from_text text = [] →
      Dictionaries.identify_language text db =
        if db = [] then some ⟨none, []⟩ else none) := by
  constructor
  · intro dictionary_words
    rfl
  · intro text db h
    unfold Dictionaries.identify_language
    rw [h]
    cases db with
    | nil => rfl
    | cons entry rest =>
      obtain ⟨lang, words⟩ := entry
      rw [if_neg (by simp)]
      simp [Dictionaries._get_candidates_frequency, Dictionaries.get_dictionaries_names,
        List.mapM.loop, c1_mapM_fail]

/-- C1 witness: the amended statement at the wordless text `"."` against a
one-language store, and at a concrete dictionary for the presence part. -/
theorem c1_witness :
    (Dictionaries.get_words_presence [] [['b']] = none)
    ∧ (Dictionaries.get_words_from_text ['.'] = []
      ∧ Dictionaries.identify_language ['.'] [("english", [['a']])] =
          (if ([("english", [['a']])] : Dictionaries.Database) = []
            then some ⟨none, []⟩ else none)) :=
  ⟨c1_empty_input_amended.1 [['b']],
   rfl,
   c1_empty_input_amended.2 ['.'] [("english", [['a']])] rfl⟩

/-! ## C4: the winner invariant of identify_language -/

theorem winner_foldl_none (l : List (String × ℚ)) :
    ∀ b : Option String × ℚ, (l.foldl Dictionaries.winnerStep b).1 = none →
      b.1 = none ∧ ∀ e ∈ l, e.2 ≤ b.2 := by
  induction l with
  | nil => intro b h; exact ⟨h, by simp⟩
  | cons e rest ih =>
    intro b h
    rw [List.foldl_cons] at h
    by_cases hc : e.2 > b.2
    · have hs : Dictionaries.winnerStep b e = (some e.1, e.2) := by
        unfold Dictionaries.winnerStep; rw [if_pos hc]
      rw [hs] at h
      obtain ⟨h1, -⟩ := ih _ h
      exact absurd h1 (by simp)
    · have hs : Dictionaries.winnerStep b e = b := by
        unfold Dictionaries.winnerStep; rw [if_neg hc]
      rw [hs] at h
      obtain ⟨h1, h2⟩ := ih _ h
      refine ⟨h1, fun x hx => ?_⟩
      rcases List.mem_cons.1 hx with rfl | hx'
      · exact not_lt.1 hc
      · exact h2 x hx'

theorem winner_foldl_some (l : List (String × ℚ)) :
    ∀ (b : Option String × ℚ) (w : String) (p : ℚ),
      l.foldl Dictionaries.winnerStep b = (some w, p) →
      (b = (some w, p) ∧ ∀ e ∈ l, e.2 ≤ p) ∨
      (∃ pre e post, l = pre ++ e :: post ∧ e.1 = w ∧ e.2 = p ∧ b.2 < p ∧
        (∀ x ∈ pre, x.2 < p) ∧ (∀ x ∈ post, x.2 ≤ p)) := by
  induction l with
  | nil => intro b w p h; exact Or.inl ⟨h, by simp⟩
  | cons e rest ih =>
    intro b w p h
    rw [List.foldl_cons] at h
    by_cases hc : e.2 > b.2
    · have hs : Dictionaries.winnerStep b e = (some e.1, e.2) := by
        unfold Dictionaries.winnerStep; rw [if_pos hc]
      rw [hs] at h
      rcases ih _ _ _ h with ⟨heq, hrest⟩ |
        ⟨pre, x, post, hsplit, hw, hp, hb2, hpre, hpost⟩
      · have he1 : e.1 = w := by
          have := congrArg Prod.fst heq
          simpa using this
        have he2 : e.2 = p := congrArg Prod.snd heq
        exact Or.inr ⟨[], e, rest, by simp, he1, he2, he2 ▸ hc, by simp, hrest⟩
      · refine Or.inr ⟨e :: pre, x, post, by rw [hsplit]; rfl, hw, hp,
          lt_trans hc hb2, fun y hy => ?_, hpost⟩
        rcases List.mem_cons.1 hy with rfl | hy'
        · exact hb2
        · exact hpre y hy'
    · have hs : Dictionaries.winnerStep b e = b := by
        unfold Dictionaries.winnerStep; rw [if_neg hc]
      rw [hs] at h
      rcases ih _ _ _ h with ⟨heq, hrest⟩ |
        ⟨pre, x, post, hsplit, hw, hp, hb2, hpre, hpost⟩
      · refine Or.inl ⟨heq, fun y hy => ?_⟩
        rcases List.mem_cons.1 hy with rfl | hy'
        · have hb : b.2 = p := congrArg Prod.snd heq
          rw [← hb]
          exact not_lt.1 hc
        · exact hrest y hy'
      · refine Or.inr ⟨e :: pre, x, post, by rw [hsplit]; rfl, hw, hp, hb2,
          fun y hy => ?_, hpost⟩
        rcases List.mem_cons.1 hy with rfl | hy'
        · exact lt_of_le_of_lt (not_lt.1 hc) hb2
        · exact hpre y hy'

theorem get_words_presence_nonneg (words dictionary_words : List (List Char)) (p : ℚ)
    (h : Dictionaries.get_words_presence words dictionary_words = some p) : 0 ≤ p := by
  simp only [Dictionaries.get_words_presence] at h
  split at h
  · exact absurd h (by simp)
  · have hp := Option.some.inj h
    rw [← hp]
    positivity

theorem freq_at_language_nonneg (words : List (List Char)) (lang : String)
    (db : Dictionaries.Database) (p : ℚ)
    (h : Dictionaries.get_candidates_frequency_at_language words lang db = some p) :
    0 ≤ p := by
  unfold Dictionaries.get_candidates_frequency_at_language at h
  rcases Option.bind_eq_some.1 h with ⟨d, -, hp⟩
  exact get_words_presence_nonneg words d p hp

theorem mapM_candidates_spec (g : String → Option ℚ) (names : List String) :
    ∀ cands : List (String × ℚ),
      names.mapM (fun language => (g language).map (fun presence => (language, presence)))
        = some cands →
      cands.map Prod.fst = names ∧ ∀ e ∈ cands, g e.1 = some e.2 := by
  induction names with
  | nil =>
    intro cands h
    rw [List.mapM_nil] at h
    have : ([] : List (String × ℚ)) = cands := Option.some.inj h
    subst this
    exact ⟨rfl, by simp⟩
  | cons L rest ih =>
    intro cands h
    rw [List.mapM_cons] at h
    rcases Option.bind_eq_some.1 h with ⟨b, hb, h2⟩
    rcases Option.bind_eq_some.1 h2 with ⟨bs, hbs, h3⟩
    have hcands : b :: bs = cands := Option.some.inj h3
    rcases Option.map_eq_some'.1 hb with ⟨pval, hg, hbval⟩
    obtain ⟨hfst, hvals⟩ := ih bs hbs
    subst hcands
    constructor
    · rw [List.map_cons, hfst, ← hbval]
    · intro e he
      rcases List.mem_cons.1 he with rfl | he'
      · rw [← hbval]
        exact hg
      · exact hvals e he'

theorem lookup_of_fst_nodup (l : List (String × ℚ)) :
    (l.map Prod.fst).Nodup → ∀ (w : String) (p : ℚ), (w, p) ∈ l →
      l.lookup w = some p := by
  induction l with
  | nil => intro _ w p hmem; cases hmem
  | cons e rest ih =>
    intro hn w p hmem
    obtain ⟨k, v⟩ := e
    rw [List.map_cons, List.nodup_cons] at hn
    rcases List.mem_cons.1 hmem with heq | h'
    · have hk : k = w := (congrArg Prod.fst heq).symm
      have hv : v = p := (congrArg Prod.snd heq).symm
      subst hk; subst hv
      simp [List.lookup]
    · have hne : (w == k) = false := by
        apply beq_eq_false_iff_ne.2
        intro hcontra
        apply hn.1
        rw [← hcontra]
        exact List.mem_map.2 ⟨(w, p), h', rfl⟩
      rw [List.lookup, hne]
      exact ih hn.2 w p h'

/-- C4: for every input and store on which `identify_language` returns
normally (and languages are pairwise distinct, as the database's language
table guarantees), the returned `winner` is `None` iff every candidate's
probability is 0; otherwise the winner is the first candidate (in scan
order) attaining the strictly-greatest probability, and
`winner_probability` is that candidate's probability. -/
theorem c4_winner_invariant (text : List Char) (db : Dictionaries.Database)
    (r : Dictionaries.IdentifiedLanguage)
    (hnodup : (db.map Prod.fst).Nodup)
    (h : Dictionaries.identify_language text db = some r) :
    (r.winner = none ↔ ∀ e ∈ r.candidates, e.2 = 0)
    ∧ (∀ w p, r.winner = some (w, p) →
        ∃ pre post, r.candidates = pre ++ (w, p) :: post
          ∧ 0 < p ∧ (∀ e ∈ pre, e.2 < p)
          ∧ ∀ e ∈ r.candidates, e.2 ≤ p) := by
  unfold Dictionaries.identify_language at h
  rcases Option.map_eq_some'.1 h with ⟨cands, hcands, hr⟩
  unfold Dictionaries._get_candidates_frequency at hcands
  obtain ⟨hfst, hvals⟩ := mapM_candidates_spec
    (fun L => Dictionaries.get_candidates_frequency_at_language
      (Dictionaries.get_words_from_text text) L db)
    (Dictionaries.get_dictionaries_names db) cands hcands
  have hnonneg : ∀ e ∈ cands, 0 ≤ e.2 := fun e he =>
    freq_at_language_nonneg _ e.1 db e.2 (hvals e he)
  have hcands_nodup : (cands.map Prod.fst).Nodup := by
    rw [hfst]
    exact hnodup
  cases hw : Dictionaries._get_winner cands with
  | none =>
    rw [hw] at hr
    subst hr
    unfold Dictionaries._get_winner at hw
    obtain ⟨-, hle⟩ := winner_foldl_none cands _ hw
    refine ⟨⟨fun _ e he => le_antisymm (hle e he) (hnonneg e he), fun _ => rfl⟩, ?_⟩
    intro w p hwp
    cases hwp
  | some w0 =>
    rw [hw] at hr
    subst hr
    unfold Dictionaries._get_winner at hw
    have hFpair : cands.foldl Dictionaries.winnerStep ((none : Option String), (0 : ℚ)) =
        (some w0, (cands.foldl Dictionaries.winnerStep
          ((none : Option String), (0 : ℚ))).2) :=
      Prod.ext hw rfl
    set P := (cands.foldl Dictionaries.winnerStep ((none : Option String), (0 : ℚ))).2
      with hP
    rcases winner_foldl_some cands _ w0 P hFpair with ⟨heq, -⟩ |
      ⟨pre, e, post, hsplit, he1, he2, hb2, hpre, hpost⟩
    · exact absurd (congrArg Prod.fst heq) (by simp)
    · have hPpos : 0 < P := hb2
      have he_pair : e = (w0, P) := Prod.ext he1 he2
      have hmem_e : (w0, P) ∈ cands := by
        rw [hsplit, ← he_pair]
        exact List.mem_append_right _ (List.mem_cons_self _ _)
      have hlookup : cands.lookup w0 = some P :=
        lookup_of_fst_nodup cands hcands_nodup w0 P hmem_e
      have hall : ∀ x ∈ cands, x.2 ≤ P := by
        intro x hx
        rw [hsplit] at hx
        rcases List.mem_append.1 hx with hx' | hx'
        · exact le_of_lt (hpre x hx')
        · rcases List.mem_cons.1 hx' with rfl | hx''
          · rw [he2]
          · exact hpost x hx''
      constructor
      · simp only [hlookup, Option.getD_some]
        constructor
        · intro habs
          exact absurd habs (by simp)
        · intro hall0
          exact absurd (hall0 (w0, P) hmem_e) (by simpa using ne_of_gt hPpos)
      · intro w p hwp
        simp only [hlookup, Option.getD_some, Option.some.injEq] at hwp
        have hww : w0 = w := congrArg Prod.fst hwp
        have hpp : P = p := congrArg Prod.snd hwp
        subst hww
        subst hpp
        refine ⟨pre, post, ?_, hPpos, hpre, hall⟩
        rw [hsplit, he_pair]

/-- C4 witness: a one-language store where the text's only word is in the
dictionary; the winner is that language with probability 1. -/
theorem c4_witness :
    ((([("english", [['a', 'b']])] : Dictionaries.Database).map Prod.fst).Nodup
      ∧ Dictionaries.identify_language ['a', 'b'] [("english", [['a', 'b']])] =
          some ⟨some ("english", 1), [("english", 1)]⟩)
    ∧ (((⟨some ("english", 1), [("english", 1)]⟩ :
          Dictionaries.IdentifiedLanguage).winner = none ↔
        ∀ e ∈ (⟨some ("english", 1), [("english", 1)]⟩ :
          Dictionaries.IdentifiedLanguage).candidates, e.2 = 0)
      ∧ (∀ w p, (⟨some ("english", 1), [("english", 1)]⟩ :
            Dictionaries.IdentifiedLanguage).winner = some (w, p) →
          ∃ pre post, (⟨some ("english", 1), [("english", 1)]⟩ :
              Dictionaries.IdentifiedLanguage).candidates = pre ++ (w, p) :: post
            ∧ 0 < p ∧ (∀ e ∈ pre, e.2 < p)
            ∧ ∀ e ∈ (⟨some ("english", 1), [("english", 1)]⟩ :
                Dictionaries.IdentifiedLanguage).candidates, e.2 ≤ p)) :=
  ⟨⟨by decide, by with_unfolding_all rfl⟩,
   c4_winner_invariant ['a', 'b'] [("english", [['a', 'b']])] _ (by decide)
     (by with_unfolding_all rfl)⟩

/-! ## C2/C3: the brute-force harness -/

theorem best_foldl_const (l : List (ℤ × Dictionaries.IdentifiedLanguage)) :
    ∀ b : ℤ × ℚ, (∀ e ∈ l, ∀ wp : String × ℚ, e.2.winner = some wp → wp.2 ≤ b.2) →
      l.foldl Dictionaries.bestStep b = b := by
  induction l with
  | nil => intro b _; rfl
  | cons e rest ih =>
    intro b hb
    rw [List.foldl_cons]
    have hs : Dictionaries.bestStep b e = b := by
      unfold Dictionaries.bestStep
      cases hwin : e.2.winner with
      | none => rfl
      | some wp =>
        show (if wp.2 > b.2 then (e.1, wp.2) else b) = b
        rw [if_neg (not_lt.2 (hb e (List.mem_cons_self _ _) wp hwin))]
    rw [hs]
    exact ih b (fun x hx => hb x (List.mem_cons_of_mem _ hx))

theorem best_foldl_firstmax (pre : List (ℤ × Dictionaries.IdentifiedLanguage)) :
    ∀ (b : ℤ × ℚ) (e : ℤ × Dictionaries.IdentifiedLanguage)
      (post : List (ℤ × Dictionaries.IdentifiedLanguage)) (w : String) (p : ℚ),
      e.2.winner = some (w, p) → b.2 < p →
      (∀ x ∈ pre, ∀ wp : String × ℚ, x.2.winner = some wp → wp.2 < p) →
      (∀ x ∈ post, ∀ wp : String × ℚ, x.2.winner = some wp → wp.2 ≤ p) →
      ((pre ++ e :: post).foldl Dictionaries.bestStep b).1 = e.1 := by
  induction pre with
  | nil =>
    intro b e post w p hwin hb hpre hpost
    rw [List.nil_append, List.foldl_cons]
    have hs : Dictionaries.bestStep b e = (e.1, p) := by
      unfold Dictionaries.bestStep
      rw [hwin]
      show (if p > b.2 then (e.1, p) else b) = (e.1, p)
      rw [if_pos hb]
    rw [hs, best_foldl_const post (e.1, p) (fun x hx wp hwp => hpost x hx wp hwp)]
  | cons x pre' ih =>
    intro b e post w p hwin hb hpre hpost
    rw [List.cons_append, List.foldl_cons]
    have hlt : (Dictionaries.bestStep b x).2 < p := by
      unfold Dictionaries.bestStep
      cases hwx : x.2.winner with
      | none => exact hb
      | some wp =>
        show (if wp.2 > b.2 then (x.1, wp.2) else b).2 < p
        by_cases hcmp : wp.2 > b.2
        · rw [if_pos hcmp]
          exact hpre x (List.mem_cons_self _ _) wp hwx
        · rw [if_neg hcmp]
          exact hb
    exact ih _ e post w p hwin hlt
      (fun y hy => hpre y (List.mem_cons_of_mem _ hy)) hpost

theorem get_best_result_default (results : List (ℤ × Dictionaries.IdentifiedLanguage))
    (h : ∀ x ∈ results, ∀ wp : String × ℚ, x.2.winner = some wp → wp.2 ≤ 0) :
    Dictionaries.get_best_result results = 0 := by
  unfold Dictionaries.get_best_result
  rw [best_foldl_const results ((0 : ℤ), (0 : ℚ)) h]

theorem bruteForceAux_no_trigger (assess : ℤ → ℤ × Dictionaries.IdentifiedLanguage)
    (keys : List ℤ) :
    ∀ acc, (∀ k ∈ keys, SimpleAttacks.earlyExitTriggered (assess k).2 = false) →
      SimpleAttacks.bruteForceAux assess keys acc =
        Dictionaries.get_best_result (acc ++ keys.map assess) := by
  induction keys with
  | nil => intro acc _; simp [SimpleAttacks.bruteForceAux]
  | cons k rest ih =>
    intro acc h
    simp only [SimpleAttacks.bruteForceAux]
    rw [h k (List.mem_cons_self _ _)]
    rw [if_neg Bool.false_ne_true]
    rw [ih (acc ++ [assess k]) (fun k' hk' => h k' (List.mem_cons_of_mem _ hk'))]
    rw [List.map_cons, List.append_assoc]
    rfl

theorem bruteForceAux_early_exit (assess : ℤ → ℤ × Dictionaries.IdentifiedLanguage)
    (pre : List ℤ) :
    ∀ (k : ℤ) (post : List ℤ) (acc : List (ℤ × Dictionaries.IdentifiedLanguage)),
      (∀ k' ∈ pre, SimpleAttacks.earlyExitTriggered (assess k').2 = false) →
      SimpleAttacks.earlyExitTriggered (assess k).2 = true →
      SimpleAttacks.bruteForceAux assess (pre ++ k :: post) acc = (assess k).1 := by
  induction pre with
  | nil =>
    intro k post acc _ htrig
    rw [List.nil_append]
    simp only [SimpleAttacks.bruteForceAux]
    rw [htrig]
    rw [if_pos rfl]
  | cons k' pre' ih =>
    intro k post acc hpre htrig
    rw [List.cons_append]
    simp only [SimpleAttacks.bruteForceAux]
    rw [hpre k' (List.mem_cons_self _ _), if_neg Bool.false_ne_true]
    exact ih k post _ (fun y hy => hpre y (List.mem_cons_of_mem _ hy)) htrig

theorem collect_foldl_get? {α : Type} (tasks : List α) (d : α) (order : List ℕ) :
    ∀ (acc : List α), acc.length = tasks.length → ∀ j : ℕ,
      (order.foldl (fun acc i => acc.set i (tasks.getD i d)) acc).get? j =
        if j ∈ order ∧ j < tasks.length then tasks.get? j else acc.get? j := by
  induction order with
  | nil =>
    intro acc hlen j
    simp
  | cons i rest ih =>
    intro acc hlen j
    rw [List.foldl_cons]
    rw [ih (acc.set i (tasks.getD i d)) (by rw [List.length_set]; exact hlen) j]
    by_cases hjrest : j ∈ rest ∧ j < tasks.length
    · rw [if_pos hjrest, if_pos ⟨List.mem_cons_of_mem _ hjrest.1, hjrest.2⟩]
    · rw [if_neg hjrest]
      by_cases hji : j = i
      · subst hji
        by_cases hjlt : j < tasks.length
        · rw [if_pos ⟨List.mem_cons_self _ _, hjlt⟩]
          rw [List.get?_set_eq]
          have hjacc : j < acc.length := by rw [hlen]; exact hjlt
          rw [List.get?_eq_get hjacc]
          rw [List.get?_eq_get (by rw [← hlen]; exact hjacc : j < tasks.length)]
          simp only [Option.map_some]
          rw [List.getD_eq_getElem tasks d (by rw [← hlen]; exact hjacc)]
          rfl
        · rw [if_neg (fun hco => hjlt hco.2)]
          rw [List.get?_eq_none.2 (by rw [List.length_set, hlen]; omega),
            List.get?_eq_none.2 (by rw [hlen]; omega)]
      · rw [if_neg (fun hco => by
          rcases List.mem_cons.1 hco.1 with h1 | h1
          · exact hji h1
          · exact hjrest ⟨h1, hco.2⟩)]
        rw [List.get?_set_ne _ _ (fun h => hji h.symm)]

theorem collectInOrder_eq {α : Type} (tasks : List α) (order : List ℕ) (d : α)
    (hcov : ∀ j, j < tasks.length → j ∈ order) :
    SimpleAttacks.collectInOrder tasks order d = tasks := by
  apply List.ext
  intro j
  unfold SimpleAttacks.collectInOrder
  rw [collect_foldl_get? tasks d order (List.replicate tasks.length d)
    (List.length_replicate _ _) j]
  by_cases hj : j < tasks.length
  · rw [if_pos ⟨hcov j hj, hj⟩]
  · rw [if_neg (fun hco => hj hco.2)]
    rw [List.get?_eq_none.2 (by rw [List.length_replicate]; omega),
      List.get?_eq_none.2 (by omega)]

/-- C2 counterexample: with a single candidate key `5` whose assessment has
no winner, `_brute_force` returns the fixed default `0` from
`get_best_result`, not the first key tried (`5`). -/
theorem c2_counterexample :
    SimpleAttacks._brute_force (fun k => (k, ⟨none, []⟩)) [5] = 0 ∧ (0 : ℤ) ≠ 5 :=
  ⟨rfl, by decide⟩

/-- C2 (amended): candidates are assessed in generation order; the first
candidate whose winner probability is `math.isclose` to 1 (abs_tol 0.01)
is returned immediately with no later candidate assessed; otherwise the
accumulated results go through `get_best_result`, which skips entries with
no winner, picks the entry with strictly-highest positive winner
probability (first-seen wins ties), and returns the fixed default key `0`
(not the first key tried) when no entry has a winner with positive
probability. -/
theorem c2_brute_force_amended :
    (∀ (assess : ℤ → ℤ × Dictionaries.IdentifiedLanguage) (pre : List ℤ) (k : ℤ)
        (post : List ℤ),
      (∀ k' ∈ pre, SimpleAttacks.earlyExitTriggered (assess k').2 = false) →
      SimpleAttacks.earlyExitTriggered (assess k).2 = true →
      SimpleAttacks._brute_force assess (pre ++ k :: post) = (assess k).1)
    ∧ (∀ (assess : ℤ → ℤ × Dictionaries.IdentifiedLanguage) (keys : List ℤ),
      (∀ k ∈ keys, SimpleAttacks.earlyExitTriggered (assess k).2 = false) →
      SimpleAttacks._brute_force assess keys =
        Dictionaries.get_best_result (keys.map assess))
    ∧ (∀ (results pre : List (ℤ × Dictionaries.IdentifiedLanguage))
        (e : ℤ × Dictionaries.IdentifiedLanguage)
        (post : List (ℤ × Dictionaries.IdentifiedLanguage)) (w : String) (p : ℚ),
      results = pre ++ e :: post → e.2.winner = some (w, p) → 0 < p →
      (∀ x ∈ pre, ∀ wp : String × ℚ, x.2.winner = some wp → wp.2 < p) →
      (∀ x ∈ post, ∀ wp : String × ℚ, x.2.winner = some wp → wp.2 ≤ p) →
      Dictionaries.get_best_result results = e.1)
    ∧ (∀ results : List (ℤ × Dictionaries.IdentifiedLanguage),
      (∀ x ∈ results, ∀ wp : String × ℚ, x.2.winner = some wp → wp.2 ≤ 0) →
      Dictionaries.get_best_result results = 0) := by
  refine ⟨?_, ?_, ?_, ?_⟩
  · intro assess pre k post hpre htrig
    exact bruteForceAux_early_exit assess pre k post [] hpre htrig
  · intro assess keys h
    unfold SimpleAttacks._brute_force
    rw [bruteForceAux_no_trigger assess keys [] h, List.nil_append]
  · intro results pre e post w p hsplit hwin hpos hpre hpost
    subst hsplit
    unfold Dictionaries.get_best_result
    exact best_foldl_firstmax pre ((0 : ℤ), (0 : ℚ)) e post w p hwin hpos hpre hpost
  · exact get_best_result_default

/-- C2 witness: the amended statement at concrete inputs — an early-exit
candidate with probability 1, a no-trigger stream, a first-seen tie
between probability-1 entries, and a winnerless result set. -/
theorem c2_witness :
    ((∀ k' ∈ ([] : List ℤ), SimpleAttacks.earlyExitTriggered
        ((fun k => (k, (⟨some ("english", 1), [("english", 1)]⟩ :
          Dictionaries.IdentifiedLanguage))) k').2 = false)
      ∧ SimpleAttacks.earlyExitTriggered
          ((fun k => (k, (⟨some ("english", 1), [("english", 1)]⟩ :
            Dictionaries.IdentifiedLanguage))) 7).2 = true
      ∧ SimpleAttacks._brute_force
          (fun k => (k, ⟨some ("english", 1), [("english", 1)]⟩)) ([] ++ 7 :: []) =
          ((fun k => (k, (⟨some ("english", 1), [("english", 1)]⟩ :
            Dictionaries.IdentifiedLanguage))) 7).1)
    ∧ ((∀ k ∈ ([1, 2] : List ℤ), SimpleAttacks.earlyExitTriggered
          ((fun k => (k, (⟨none, []⟩ : Dictionaries.IdentifiedLanguage))) k).2 = false)
      ∧ SimpleAttacks._brute_force (fun k => (k, ⟨none, []⟩)) [1, 2] =
          Dictionaries.get_best_result
            (([1, 2] : List ℤ).map (fun k => (k, ⟨none, []⟩))))
    ∧ (Dictionaries.get_best_result
        [(4, ⟨some ("a", 1), []⟩), (6, ⟨some ("b", 1), []⟩)] = 4)
    ∧ (Dictionaries.get_best_result [(9, ⟨none, []⟩)] = 0) := by
  refine ⟨⟨?_, ?_, ?_⟩, ⟨?_, ?_⟩, ?_, ?_⟩
  · intro k' hk'
    exact absurd hk' (List.not_mem_nil k')
  · with_unfolding_all rfl
  · exact c2_brute_force_amended.1 (fun k => (k, ⟨some ("english", 1), [("english", 1)]⟩))
      [] 7 [] (fun k' hk' => absurd hk' (List.not_mem_nil k'))
      (by with_unfolding_all rfl)
  · intro k hk
    rfl
  · exact c2_brute_force_amended.2.1 (fun k => (k, ⟨none, []⟩)) [1, 2] (fun k hk => rfl)
  · exact c2_brute_force_amended.2.2.1
      ([((4 : ℤ), (⟨some ("a", 1), [] ⟩ : Dictionaries.IdentifiedLanguage)),
        ((6 : ℤ), (⟨some ("b", 1), [] ⟩ : Dictionaries.IdentifiedLanguage))])
      [] ((4 : ℤ), (⟨some ("a", 1), [] ⟩ : Dictionaries.IdentifiedLanguage))
      [((6 : ℤ), (⟨some ("b", 1), [] ⟩ : Dictionaries.IdentifiedLanguage))] "a" 1 rfl rfl
      (by norm_num)
      (fun x hx => absurd hx (List.not_mem_nil x))
      (by
        intro x hx wp hwp
        rw [List.mem_singleton] at hx
        subst hx
        obtain rfl := Option.some.inj hwp
        exact le_refl 1)
  · exact c2_brute_force_amended.2.2.2 [(9, ⟨none, []⟩)]
      (by
        intro x hx wp hwp
        rw [List.mem_singleton] at hx
        subst hx
        exact Option.noConfusion hwp)

/-- C3: whenever the sequential early exit does not trigger, the parallel
harness — which gathers each worker's result into its task's
submission-order slot, for any worker completion order that covers all
tasks — collects exactly the submission-ordered result list and selects
exactly the same key as the sequential harness. -/
theorem c3_parallel_equals_sequential
    (assess : ℤ → ℤ × Dictionaries.IdentifiedLanguage) (keys : List ℤ)
    (completion_order : List ℕ)
    (hno : ∀ k ∈ keys, SimpleAttacks.earlyExitTriggered (assess k).2 = false)
    (hperm : completion_order.Perm (List.range keys.length)) :
    SimpleAttacks.collectInOrder (keys.map assess) completion_order
        (0, ⟨none, []⟩) = keys.map assess
    ∧ SimpleAttacks._brute_force_mp assess keys completion_order =
      SimpleAttacks._brute_force assess keys := by
  have hcollect : SimpleAttacks.collectInOrder (keys.map assess) completion_order
      (0, ⟨none, []⟩) = keys.map assess := by
    apply collectInOrder_eq
    intro j hj
    rw [List.length_map] at hj
    exact hperm.mem_iff.2 (List.mem_range.2 hj)
  refine ⟨hcollect, ?_⟩
  unfold SimpleAttacks._brute_force_mp
  rw [hcollect]
  unfold SimpleAttacks._brute_force
  rw [bruteForceAux_no_trigger assess keys [] hno, List.nil_append]

/-- C3 witness: two no-winner candidates gathered under the reversed
completion order select the same key as the sequential run. -/
theorem c3_witness :
    ((∀ k ∈ ([1, 2] : List ℤ), SimpleAttacks.earlyExitTriggered
        ((fun k => (k, (⟨none, []⟩ : Dictionaries.IdentifiedLanguage))) k).2 = false)
      ∧ ([1, 0] : List ℕ).Perm (List.range ([1, 2] : List ℤ).length))
    ∧ (SimpleAttacks.collectInOrder
        (([1, 2] : List ℤ).map (fun k =>
          ((k, ⟨none, []⟩) : ℤ × Dictionaries.IdentifiedLanguage))) [1, 0]
        (0, ⟨none, []⟩) = ([1, 2] : List ℤ).map (fun k =>
          ((k, ⟨none, []⟩) : ℤ × Dictionaries.IdentifiedLanguage))
      ∧ SimpleAttacks._brute_force_mp (fun k => (k, ⟨none, []⟩)) [1, 2] [1, 0] =
        SimpleAttacks._brute_force (fun k => (k, ⟨none, []⟩)) [1, 2]) :=
  ⟨⟨fun k hk => rfl, by decide⟩,
   c3_parallel_equals_sequential (fun k => (k, ⟨none, []⟩)) [1, 2] [1, 0]
     (fun k hk => rfl) (by decide)⟩

/-! ## C5/C6: the Mapping solver invariants -/

theorem mapping_map_getD (m : AttackSubstitution.Mapping)
    (f : Char × Finset Char → Char × Finset Char) (j : ℕ) (hj : j < m.length) :
    (m.map f).getD j default = f (m.getD j default) := by
  rw [List.getD_eq_getElem _ _ (by rw [List.length_map]; exact hj),
    List.getD_eq_getElem _ _ hj, List.getElem_map]

theorem foldl_erase_subset (cands : List Char) :
    ∀ s : Finset Char, cands.foldl (fun s c => s.erase c) s ⊆ s := by
  induction cands with
  | nil => intro s; exact Finset.Subset.refl s
  | cons c rest ih =>
    intro s
    rw [List.foldl_cons]
    exact (ih (s.erase c)).trans (Finset.erase_subset c s)

theorem mem_foldl_erase (cands : List Char) :
    ∀ (s : Finset Char) (x : Char), x ∈ cands →
      x ∉ cands.foldl (fun s c => s.erase c) s := by
  induction cands with
  | nil => intro s x hx; cases hx
  | cons c rest ih =>
    intro s x hx
    rw [List.foldl_cons]
    rcases List.mem_cons.1 hx with rfl | hx'
    · intro hmem
      exact (Finset.not_mem_erase x s) (foldl_erase_subset rest (s.erase x) hmem)
    · exact ih (s.erase c) x hx'

/-- C5 counterexample: cleanup of `a -> {p}, b -> {p, q}, c -> {q, r}`
shrinks `b` to the singleton `{q}` whose sole member `q` still appears in
the other multi-member set `c -> {q, r}`: the claimed post-state
injectivity fails because `clean_redundancies` computes the singletons
once, before any removal, and does not iterate to a fixed point. -/
theorem c5_counterexample :
    (((AttackSubstitution.clean_redundancies
        [('a', ({'p'} : Finset Char)), ('b', {'p', 'q'}), ('c', {'q', 'r'})]).getD 1
        default).2.card = 1)
    ∧ 'q' ∈ ((AttackSubstitution.clean_redundancies
        [('a', ({'p'} : Finset Char)), ('b', {'p', 'q'}), ('c', {'q', 'r'})]).getD 1
        default).2
    ∧ (1 < ((AttackSubstitution.clean_redundancies
        [('a', ({'p'} : Finset Char)), ('b', {'p', 'q'}), ('c', {'q', 'r'})]).getD 2
        default).2.card)
    ∧ 'q' ∈ ((AttackSubstitution.clean_redundancies
        [('a', ({'p'} : Finset Char)), ('b', {'p', 'q'}), ('c', {'q', 'r'})]).getD 2
        default).2 := by
  refine ⟨by decide, by decide, by decide, by decide⟩

/-- C5 (amended): after `clean_redundancies`, any letter that was the sole
member of a singleton candidate set at the time of the call is absent
from every other candidate set that was multi-member at the time of the
call. -/
theorem c5_clean_redundancies_amended (m : AttackSubstitution.Mapping)
    (i j : ℕ) (hi : i < m.length) (hj : j < m.length) (hij : i ≠ j)
    (hcard1 : (m.getD i default).2.card = 1)
    (hcardj : 1 < (m.getD j default).2.card)
    (x : Char) (hx : x ∈ (m.getD i default).2) :
    x ∉ ((AttackSubstitution.clean_redundancies m).getD j default).2 := by
  unfold AttackSubstitution.clean_redundancies
  rw [mapping_map_getD m _ j hj]
  rw [if_pos hcardj]
  apply mem_foldl_erase
  apply List.mem_filterMap.2
  refine ⟨(m.getD i default).2, ?_, ?_⟩
  · rw [List.getD_eq_getElem _ _ hi]
    exact List.mem_map.2 ⟨m[i], List.getElem_mem hi, rfl⟩
  · rw [if_pos hcard1]
    obtain ⟨a, ha⟩ := Finset.card_eq_one.1 hcard1
    have hxa : x = a := by
      rw [ha] at hx
      exact Finset.mem_singleton.1 hx
    rw [ha, hxa]
    unfold AttackSubstitution.setFirst
    rw [Finset.min_singleton]
    rfl

/-- C5 witness: the amended statement at the cascading mapping; the
original singleton's member `p` is indeed removed from the set that was
multi-member at call time. -/
theorem c5_witness :
    ((0 : ℕ) < ([('a', ({'p'} : Finset Char)), ('b', {'p', 'q'})] :
        AttackSubstitution.Mapping).length
      ∧ (1 : ℕ) < ([('a', ({'p'} : Finset Char)), ('b', {'p', 'q'})] :
        AttackSubstitution.Mapping).length
      ∧ (0 : ℕ) ≠ 1
      ∧ (([('a', ({'p'} : Finset Char)), ('b', {'p', 'q'})].getD 0 default).2.card = 1)
      ∧ (1 < ([('a', ({'p'} : Finset Char)), ('b', {'p', 'q'})].getD 1 default).2.card)
      ∧ 'p' ∈ ([('a', ({'p'} : Finset Char)), ('b', {'p', 'q'})].getD 0 default).2)
    ∧ 'p' ∉ ((AttackSubstitution.clean_redundancies
        [('a', ({'p'} : Finset Char)), ('b', {'p', 'q'})]).getD 1 default).2 :=
  ⟨⟨by decide, by decide, by decide, by decide, by decide, by decide⟩,
   c5_clean_redundancies_amended [('a', ({'p'} : Finset Char)), ('b', {'p', 'q'})]
     0 1 (by decide) (by decide) (by decide) (by decide) (by decide) 'p' (by decide)⟩

/-- C6 counterexample: `reduce_mapping` assigns a word mapping's non-empty
candidate set to a cipherletter whose running set is empty, so that
set's cardinality increases from 0 to 2 across the call — refuting
"no candidate set ever increases in cardinality from one call to the
next". -/
theorem c6_counterexample :
    (([(('a' : Char), (∅ : Finset Char))].getD 0 default).2.card = 0)
    ∧ (((AttackSubstitution.reduce_mapping [('a', ∅)]
        [('a', ({'p', 'q'} : Finset Char))]).getD 0 default).2.card = 2)
    ∧ (0 : ℕ) < 2 := by
  refine ⟨by decide, by decide, by decide⟩

/-- C6 (amended): a `reduce_mapping` call never increases the cardinality
of a candidate set that is non-empty when the call starts (an empty set
may be assigned the word mapping's set, which is the one growth the data
model allows); and `clean_redundancies` leaves every singleton set — in
particular its own sole value — untouched. -/
theorem c6_monotonicity_amended :
    (∀ (self word_mapping : AttackSubstitution.Mapping) (i : ℕ), i < self.length →
      (self.getD i default).2 ≠ ∅ →
      ((AttackSubstitution.reduce_mapping self word_mapping).getD i default).2.card ≤
        (self.getD i default).2.card)
    ∧ (∀ (self : AttackSubstitution.Mapping) (i : ℕ), i < self.length →
      (self.getD i default).2.card = 1 →
      ((AttackSubstitution.clean_redundancies self).getD i default).2 =
        (self.getD i default).2) := by
  constructor
  · intro self word_mapping i hi hne
    unfold AttackSubstitution.reduce_mapping
    rw [mapping_map_getD self _ i hi]
    by_cases h1 : 1 < (self.getD i default).2.card ∧
        AttackSubstitution.wordLookup word_mapping (self.getD i default).1 ≠ ∅
    · rw [if_pos h1]
      exact Finset.card_le_card Finset.inter_subset_left
    · rw [if_neg h1]
      rw [if_neg (fun hco => hne hco.1)]
  · intro self i hi hcard
    unfold AttackSubstitution.clean_redundancies
    rw [mapping_map_getD self _ i hi]
    rw [if_neg (by omega)]

/-- C6 witness: the amended statement at a two-candidate set intersected
down, and at a singleton left alone by cleanup. -/
theorem c6_witness :
    (((0 : ℕ) < ([('a', ({'p', 'q'} : Finset Char))] :
        AttackSubstitution.Mapping).length
      ∧ ([('a', ({'p', 'q'} : Finset Char))].getD 0 default).2 ≠ ∅)
      ∧ ((AttackSubstitution.reduce_mapping [('a', ({'p', 'q'} : Finset Char))]
          [('a', ({'p'} : Finset Char))]).getD 0 default).2.card ≤
        ([('a', ({'p', 'q'} : Finset Char))].getD 0 default).2.card)
    ∧ (((0 : ℕ) < ([('a', ({'p'} : Finset Char))] :
        AttackSubstitution.Mapping).length
      ∧ ([('a', ({'p'} : Finset Char))].getD 0 default).2.card = 1)
      ∧ ((AttackSubstitution.clean_redundancies
          [('a', ({'p'} : Finset Char))]).getD 0 default).2 =
        ([('a', ({'p'} : Finset Char))].getD 0 default).2) :=
  ⟨⟨⟨by decide, by decide⟩,
    c6_monotonicity_amended.1 [('a', ({'p', 'q'} : Finset Char))]
      [('a', ({'p'} : Finset Char))] 0 (by decide) (by decide)⟩,
   ⟨⟨by decide, by decide⟩,
    c6_monotonicity_amended.2 [('a', ({'p'} : Finset Char))] 0 (by decide) (by decide)⟩⟩

/-! ## C9: Kasiski repeated-sequence separations -/

theorem mem_pyRangeDown (start stop n : ℕ) :
    n ∈ Frequency.pyRangeDown start stop ↔ stop < n ∧ n ≤ start := by
  unfold Frequency.pyRangeDown
  rw [List.mem_map]
  constructor
  · rintro ⟨t, ht, rfl⟩
    rw [List.mem_range] at ht
    omega
  · intro h
    exact ⟨start - n, List.mem_range.2 (by omega), by omega⟩

theorem slice_sum (spaces : List ℕ) (i n : ℕ) (hi : i < spaces.length)
    (hn : i + 1 < n) :
    spaces.getD i 0 + ((spaces.drop (i + 1)).take (n - (i + 1))).sum =
      ((spaces.drop i).take (n - i)).sum := by
  rw [List.drop_eq_getElem_cons hi]
  have hsub : n - i = (n - (i + 1)) + 1 := by omega
  rw [hsub, List.take_succ_cons, List.sum_cons]
  rw [List.getD_eq_getElem spaces 0 hi]

theorem mem_notAdjacentSpaces (spaces : List ℕ) (x : ℕ) :
    x ∈ Frequency.notAdjacentSpaces spaces ↔
      ∃ i j, i < j ∧ j < spaces.length ∧
        x = ((spaces.drop i).take (j - i + 1)).sum := by
  unfold Frequency.notAdjacentSpaces
  rw [List.mem_flatMap]
  constructor
  · rintro ⟨i, hi, hx⟩
    rw [List.mem_range] at hi
    rw [List.mem_map] at hx
    obtain ⟨n, hn, rfl⟩ := hx
    rw [mem_pyRangeDown] at hn
    refine ⟨i, n - 1, by omega, by omega, ?_⟩
    have h1 : n - 1 - i + 1 = n - i := by omega
    rw [h1]
    exact slice_sum spaces i n hi (by omega)
  · rintro ⟨i, j, hij, hj, rfl⟩
    refine ⟨i, List.mem_range.2 (by omega), ?_⟩
    rw [List.mem_map]
    refine ⟨j + 1, (mem_pyRangeDown _ _ _).2 ⟨by omega, by omega⟩, ?_⟩
    have h1 : j + 1 - i = j - i + 1 := by omega
    rw [slice_sum spaces i (j + 1) (by omega) (by omega), h1]

theorem dictLookup_not_adjacent (sequences : Frequency.SeqDict) :
    ∀ (seq : List Char) (spaces : List ℕ),
      Frequency.dictLookup sequences seq = some spaces →
      Frequency.dictLookup (Frequency._find_not_adjacent_separations sequences) seq =
        some (if 1 < spaces.length
          then spaces ++ Frequency.notAdjacentSpaces spaces else spaces) := by
  induction sequences with
  | nil => intro seq spaces h; exact absurd h (by simp [Frequency.dictLookup])
  | cons entry rest ih =>
    intro seq spaces h
    obtain ⟨k, v⟩ := entry
    unfold Frequency.dictLookup at h ⊢
    unfold Frequency._find_not_adjacent_separations
    rw [List.map_cons]
    by_cases hk : (k == seq) = true
    · rw [List.find?] at h
      simp only [hk] at h
      have hv : v = spaces := Option.some.inj (by simpa using h)
      subst hv
      by_cases hlen : 1 < v.length
      · rw [if_pos hlen, List.find?]
        simp only [hk]
        rw [if_pos hlen]
        rfl
      · rw [if_neg hlen, List.find?]
        simp only [hk]
        rw [if_neg hlen]
        rfl
    · have hkf : (k == seq) = false := by
        cases hcase : (k == seq)
        · rfl
        · exact absurd hcase hk
      rw [List.find?] at h
      simp only [hkf] at h
      have hrest := ih seq spaces h
      unfold Frequency.dictLookup Frequency._find_not_adjacent_separations at hrest
      by_cases hlen : 1 < v.length
      · rw [if_pos hlen, List.find?]
        simp only [hkf]
        exact hrest
      · rw [if_neg hlen, List.find?]
        simp only [hkf]
        exact hrest

set_option maxRecDepth 100000 in
set_option maxHeartbeats 2000000 in
/-- C9: the two-pass repeated-sequence analysis.  The second pass
synthesizes exactly the sums of consecutive adjacent gaps — every
pairwise separation between occurrence `i` and a later non-adjacent
occurrence — and appends them to each pattern that has more than one
adjacent separation; on the spec's Kasiski scenario text with window
length 3 the pattern "ybn" gets separation 8 and "vra" gets separations
8, 24 and 32. -/
theorem c9_find_repeated_sequences :
    (∀ (spaces : List ℕ) (x : ℕ),
      x ∈ Frequency.notAdjacentSpaces spaces ↔
        ∃ i j, i < j ∧ j < spaces.length ∧
          x = ((spaces.drop i).take (j - i + 1)).sum)
    ∧ (∀ (sequences : Frequency.SeqDict) (seq : List Char) (spaces : List ℕ),
      Frequency.dictLookup sequences seq = some spaces →
      Frequency.dictLookup (Frequency._find_not_adjacent_separations sequences) seq =
        some (if 1 < spaces.length
          then spaces ++ Frequency.notAdjacentSpaces spaces else spaces))
    ∧ Frequency.dictLookup
        (Frequency.find_repeated_sequences
          ("PPQCA XQVEKG YBNKMAZU YBNGBAL JON I TSZM JYIM. VRAG VOHT VRAU C TKSG. DDWUO XITLAZU VAVV RAZ C VKB QP IWPOU".toList)
          3) "ybn".toList = some [8]
    ∧ Frequency.dictLookup
        (Frequency.find_repeated_sequences
          ("PPQCA XQVEKG YBNKMAZU YBNGBAL JON I TSZM JYIM. VRAG VOHT VRAU C TKSG. DDWUO XITLAZU VAVV RAZ C VKB QP IWPOU".toList)
          3) "vra".toList = some [8, 24, 32] :=
  ⟨mem_notAdjacentSpaces, dictLookup_not_adjacent, by decide, by decide⟩

/-- C9 witness: the second-pass rule applied to a pattern with adjacent
separations `[3, 4]`, which gains the synthesized non-adjacent
separation `7`. -/
theorem c9_witness :
    (Frequency.dictLookup [(['a'], [3, 4])] ['a'] = some [3, 4])
    ∧ Frequency.dictLookup
        (Frequency._find_not_adjacent_separations [(['a'], [3, 4])]) ['a'] =
        some (if 1 < ([3, 4] : List ℕ).length
          then [3, 4] ++ Frequency.notAdjacentSpaces [3, 4] else [3, 4]) :=
  ⟨rfl, c9_find_repeated_sequences.2.1 [(['a'], [3, 4])] ['a'] [3, 4] rfl⟩
